import Mathlib

set_option maxHeartbeats 1000000

namespace DraftPad

/-!
Shallow embedding of the document-state core of the repository
(`src/src/utils/hooks.tsx`): the `DrawState` data model, its operation
algebra (add / erase / mutate / split / undo / redo), serialization
(`flaten` / `loadFromFlat`) and the heap-based k-way merge
(`mergeStates`).

Modelling conventions:
* `immutable.OrderedMap` / `immutable.Map` are modelled as association
  lists (`List (String × α)`) with `omSet` replacing an existing key in
  place (preserving insertion position) and appending new keys at the
  end, exactly the iteration semantics of `OrderedMap`.
* `immutable.List` stacks are modelled as Lean lists with the most
  recent element at the head (the code only uses `push`/`last` on
  `historyStack` and `unshift`/`first` on `undoStack`).
* JS timestamps are `Int`; the heap comparator
  `([s0], [s1]) => s0.timestamp - s1.timestamp` is kept as an `Int`
  subtraction tested against `0`.
* Calls to the external `uuid` library (`v4`, `v5`, `validate`, `NIL`)
  and to `Date.now()` are nondeterministic inputs of the program; they
  are passed explicitly through a `UidEnv` environment.
* The npm `heap` package (a port of Python's `heapq`) is embedded
  operation by operation: `heappush`, `heappop`, `siftdownGo`
  (`_siftdown`), `siftupLoop`/`siftup` (`_siftup`).
-/

/-- `Stroke` from the source: the `type: "STROKE"` variant. -/
structure Stroke where
  uid : String
  pathData : String
  timestamp : Int
  deriving DecidableEq, Repr

/-- `StrokeData` from the source: strokes, `HIDE` tombstones and
`MUTATE` supersede records. -/
inductive StrokeData : Type where
  | stroke (s : Stroke)
  | hide (uid originUid : String) (timestamp : Int)
  | mutate (uid originUid pathData : String) (timestamp : Int)
  deriving DecidableEq, Repr

/-- The `timestamp` field shared by all `StrokeData` variants. -/
def StrokeData.timestamp : StrokeData → Int
  | .stroke s => s.timestamp
  | .hide _ _ t => t
  | .mutate _ _ _ t => t

/-- The origin UID of a `MUTATE` record, `none` for the other variants. -/
def StrokeData.mutOrigin : StrokeData → Option String
  | .mutate _ o _ _ => some o
  | _ => none

/-- Whether a `StrokeData` is the `STROKE` variant. -/
def StrokeData.isStrokeItem : StrokeData → Bool
  | .stroke _ => true
  | _ => false

/-- `OrderedMap.get`: first (unique) entry with the given key. -/
def omLookup {α : Type} : List (String × α) → String → Option α
  | [], _ => none
  | (k, v) :: rest, key => if k = key then some v else omLookup rest key

/-- `OrderedMap.set`: replace in place if the key exists (keeping its
insertion position), otherwise append at the end. -/
def omSet {α : Type} : List (String × α) → String → α → List (String × α)
  | [], key, v => [(key, v)]
  | (k, w) :: rest, key, v =>
      if k = key then (key, v) :: rest else (k, w) :: omSet rest key v

/-- `OrderedMap.delete`. -/
def omDelete {α : Type} (m : List (String × α)) (key : String) : List (String × α) :=
  m.filter (fun p => p.1 != key)

/-- `OrderedMap.deleteAll`. -/
def omDeleteAll {α : Type} (m : List (String × α)) (keys : List String) : List (String × α) :=
  keys.foldl omDelete m

/-- `OrderedMap.has`. -/
def omHas {α : Type} (m : List (String × α)) (key : String) : Bool :=
  (omLookup m key).isSome

/-- `OrderedMap.merge` with a list of entries: set each in order. -/
def omMergeList {α : Type} (m : List (String × α)) (entries : List (String × α)) :
    List (String × α) :=
  entries.foldl (fun acc p => omSet acc p.1 p.2) m

/-- `OrderedMap(obj)`: build a map from entries in order. -/
def fromEntries {α : Type} (entries : List (String × α)) : List (String × α) :=
  omMergeList [] entries

/-- The `Operation` tagged union from the source. -/
inductive Operation : Type where
  | add (stroke : Stroke)
  | add_list (strokeList : List Stroke)
  | erase (erased : List String)
  | mutate (mutations : List (String × String)) (timestamp : Int)
  | split (splitters : List (String × List String))
  | undo
  | redo

/-- `DrawStateRecord`: strokes map, supersede index, undo and history
stacks (stacks hold full prior records, most recent first). -/
inductive DSRecord : Type where
  | mk (strokes : List (String × StrokeData))
       (mutationPairs : List (String × String))
       (undoStack : List DSRecord)
       (historyStack : List DSRecord)

def DSRecord.strokes : DSRecord → List (String × StrokeData)
  | .mk s _ _ _ => s

def DSRecord.mutationPairs : DSRecord → List (String × String)
  | .mk _ p _ _ => p

def DSRecord.undoStack : DSRecord → List DSRecord
  | .mk _ _ u _ => u

def DSRecord.historyStack : DSRecord → List DSRecord
  | .mk _ _ _ h => h

/-- The `DrawState` class: an immutable record plus fixed page
dimensions and the last applied operation. -/
structure DrawState where
  record : DSRecord
  width : Int
  height : Int
  lastOp : Option Operation := none

/-- Nondeterministic external inputs: successive `v4()` results
(`freshU`), successive `Date.now()` results (`nowF`), and the `uuid`
library's `validate`, `v5` and `NIL` namespace. -/
structure UidEnv where
  freshU : Nat → String
  nowF : Nat → Int
  validate : String → Bool
  v5 : String → String → String
  nilNs : String

/-- `DrawState.createEmpty(ratio, width)` (height = width * ratio). -/
def DrawState.createEmpty (aspect width : Int) : DrawState :=
  { record := .mk [] [] [] [], width := width, height := width * aspect }

/-- `DrawState.undo`. -/
def DrawState.undo (ds : DrawState) : DrawState :=
  match ds.record.historyStack with
  | [] => ds
  | lastRecord :: _ =>
      { record := .mk lastRecord.strokes lastRecord.mutationPairs
          (ds.record :: ds.record.undoStack) lastRecord.historyStack,
        width := ds.width, height := ds.height, lastOp := some .undo }

/-- `DrawState.redo`. -/
def DrawState.redo (ds : DrawState) : DrawState :=
  match ds.record.undoStack with
  | [] => ds
  | nextRecord :: _ =>
      { record := nextRecord, width := ds.width, height := ds.height,
        lastOp := some .redo }

/-- `DrawState.pushStroke`. -/
def DrawState.pushStroke (ds : DrawState) (s : Stroke) : DrawState :=
  let prev := ds.record
  { record := .mk (omSet prev.strokes s.uid (.stroke s)) prev.mutationPairs
      [] (prev :: prev.historyStack),
    width := ds.width, height := ds.height, lastOp := some (.add s) }

/-- `DrawState.pushStrokeList`: only the strokes map is updated (no
history push, no undo-stack clear). -/
def DrawState.pushStrokeList (ds : DrawState) (strokeList : List Stroke) : DrawState :=
  let prev := ds.record
  { record := .mk (omMergeList prev.strokes (strokeList.map (fun s => (s.uid, .stroke s))))
      prev.mutationPairs prev.undoStack prev.historyStack,
    width := ds.width, height := ds.height, lastOp := some (.add_list strokeList) }

/-- The `hidden.forEach` loop of `eraseStrokes`: insert a fresh
tombstone for each UID that was absent from the map. -/
def addTombstones (env : UidEnv) :
    List (String × StrokeData) → List String → Nat → List (String × StrokeData)
  | sm, [], _ => sm
  | sm, hideID :: rest, i =>
      addTombstones env
        (omSet sm (env.freshU i) (.hide (env.freshU i) hideID (env.nowF i))) rest (i + 1)

/-- `DrawState.eraseStrokes`. -/
def DrawState.eraseStrokes (env : UidEnv) (ds : DrawState) (erased : List String) : DrawState :=
  if erased = [] then ds else
  let prev := ds.record
  let strokes0 := prev.strokes
  let hidden := erased.filter (fun uid => !(omHas strokes0 uid))
  let strokes1 := omDeleteAll strokes0 erased
  let strokes2 := addTombstones env strokes1 hidden 0
  { record := .mk strokes2 prev.mutationPairs [] (prev :: prev.historyStack),
    width := ds.width, height := ds.height, lastOp := some (.erase erased) }

/-- The `mutations.forEach` loop of `mutateStrokes`: insert a fresh
`MUTATE` record, reindex `mutationPairs`, delete the previous supersede
record (`prevMutationUid ?? ""`). -/
def mutateGo (env : UidEnv) (ts : Int) :
    List (String × String) → Nat →
    List (String × StrokeData) × List (String × String) →
    List (String × StrokeData) × List (String × String)
  | [], _, st => st
  | (uid, pathData) :: rest, i, (sm, mp) =>
      let newUid := env.freshU i
      let sm1 := omSet sm newUid (.mutate newUid uid pathData ts)
      let prevMut := omLookup mp uid
      let mp1 := omSet mp uid newUid
      let sm2 := omDelete sm1 (prevMut.getD "")
      mutateGo env ts rest (i + 1) (sm2, mp1)

/-- `DrawState.mutateStrokes`. -/
def DrawState.mutateStrokes (env : UidEnv) (ds : DrawState)
    (mutations : List (String × String)) (ts : Int) : DrawState :=
  if mutations = [] then ds else
  let prev := ds.record
  let res := mutateGo env ts mutations 0 (prev.strokes, prev.mutationPairs)
  { record := .mk res.1 res.2 [] (prev :: prev.historyStack),
    width := ds.width, height := ds.height, lastOp := some (.mutate mutations ts) }

/-- The `splitStrokes.map((pathData, index) => ...)` body: derive the
children of one split origin, threading the legacy-UID normalization of
`prevUid` exactly as the closure reassignment does. -/
def splitChildren (env : UidEnv) (ts : Int) :
    List String → String → Nat → List (String × StrokeData)
  | [], _, _ => []
  | pathData :: rest, prevUid, index =>
      let prevUid1 := if env.validate prevUid then prevUid else env.v5 prevUid env.nilNs
      let uid := env.v5 (toString index) prevUid1
      (uid, .stroke ⟨uid, pathData, ts⟩) :: splitChildren env ts rest prevUid1 (index + 1)

/-- `DrawState.splitStrokes`: note the history push without an
undo-stack clear. -/
def DrawState.splitStrokes (env : UidEnv) (ds : DrawState)
    (splitters : List (String × List String)) : DrawState :=
  if splitters = [] then ds else
  let splitMap := fromEntries splitters
  let prev := ds.record
  let strokes := prev.strokes.foldl (fun acc p =>
      match omLookup splitMap p.1 with
      | some splitList => omMergeList acc (splitChildren env p.2.timestamp splitList p.1 0)
      | none => omSet acc p.1 p.2) []
  { record := .mk strokes prev.mutationPairs prev.undoStack (prev :: prev.historyStack),
    width := ds.width, height := ds.height, lastOp := some (.split splitters) }

/-- `DrawState.pushOperation`: dispatch by operation tag. -/
def DrawState.pushOperation (env : UidEnv) (ds : DrawState) (op : Operation) : DrawState :=
  match op with
  | .add stroke => DrawState.pushStroke ds stroke
  | .add_list strokeList => DrawState.pushStrokeList ds strokeList
  | .erase erased => DrawState.eraseStrokes env ds erased
  | .mutate mutations ts => DrawState.mutateStrokes env ds mutations ts
  | .undo => DrawState.undo ds
  | .redo => DrawState.redo ds
  | .split splitters => DrawState.splitStrokes env ds splitters

/-- `FlatState`: the persisted form. -/
structure FlatState where
  strokes : List (String × StrokeData)
  operations : Option (List Operation) := none

/-- `DrawState.flaten`. -/
def DrawState.flaten (ds : DrawState) : FlatState :=
  { strokes := ds.record.strokes }

/-- The `Object.entries(strokes).forEach` scan of `loadFromFlat`:
rebuild `mutationPairs` and delete superseded `MUTATE` records. -/
def loadScan :
    List (String × StrokeData) →
    List (String × StrokeData) × List (String × String) →
    List (String × StrokeData) × List (String × String)
  | [], st => st
  | (uid, sd) :: rest, (sm, mp) =>
      match sd.mutOrigin with
      | none => loadScan rest (sm, mp)
      | some origin =>
          let prevMut := omLookup mp origin
          let mp1 := omSet mp origin uid
          let sm1 := match prevMut with
            | some p => if p = "" then sm else omDelete sm p
            | none => sm
          loadScan rest (sm1, mp1)

/-- `DrawState.loadFromFlat`: rebuild the record and replay the trailing
operation log (each replayed operation draws its own fresh UIDs, hence
the per-step environment). -/
def DrawState.loadFromFlat (envF : Nat → UidEnv) (flat : FlatState)
    (aspect width : Int) : DrawState :=
  let res := loadScan flat.strokes (fromEntries flat.strokes, [])
  let ds0 : DrawState :=
    { record := .mk res.1 res.2 [] [], width := width, height := width * aspect }
  match flat.operations with
  | none => ds0
  | some ops =>
      (ops.foldl (fun (p : DrawState × Nat) op =>
        (DrawState.pushOperation (envF p.2) p.1 op, p.2 + 1)) (ds0, 0)).1

/-- A heap element `[StrokeData, sourceIndex]` of the merge queue. -/
abbrev HeapElem := StrokeData × Nat

/-- The merge comparator `([s0], [s1]) => s0.timestamp - s1.timestamp`;
the heap library only ever tests `cmp(a, b) < 0`. -/
def heapLt (a b : HeapElem) : Bool :=
  decide (a.1.timestamp - b.1.timestamp < 0)

/-- Default element for (never reached) out-of-range array reads. -/
def dfltElem : HeapElem := (.hide "" "" 0, 0)

/-- `_siftdown(array, startpos, pos)` of the `heap` package, after its
initial read of `newitem = array[pos]`. -/
def siftdownGo (arr : List HeapElem) (startpos : Nat) (newitem : HeapElem)
    (pos : Nat) : List HeapElem :=
  if h : startpos < pos then
    if heapLt newitem (arr.getD ((pos - 1) / 2) dfltElem) then
      siftdownGo (arr.set pos (arr.getD ((pos - 1) / 2) dfltElem)) startpos newitem ((pos - 1) / 2)
    else
      arr.set pos newitem
  else
    arr.set pos newitem
termination_by pos
decreasing_by
  have h1 : (pos - 1) / 2 ≤ pos - 1 := Nat.div_le_self _ _
  omega

/-- The while-loop of `_siftup`: move the smaller child up until the
hole reaches a leaf, returning the final array and hole position. -/
def siftupLoop (arr : List HeapElem) (pos : Nat) : List HeapElem × Nat :=
  if h : 2 * pos + 1 < arr.length then
    if h2 : 2 * pos + 2 < arr.length ∧
        ¬ heapLt (arr.getD (2 * pos + 1) dfltElem) (arr.getD (2 * pos + 2) dfltElem) = true then
      siftupLoop (arr.set pos (arr.getD (2 * pos + 2) dfltElem)) (2 * pos + 2)
    else
      siftupLoop (arr.set pos (arr.getD (2 * pos + 1) dfltElem)) (2 * pos + 1)
  else (arr, pos)
termination_by arr.length - pos
decreasing_by
  all_goals simp only [List.length_set]; omega

/-- `_siftup(array, pos)`: run the loop, write `newitem` into the final
hole, then `_siftdown` back towards the start position. -/
def siftup (arr : List HeapElem) (pos : Nat) : List HeapElem :=
  let newitem := arr.getD pos dfltElem
  let res := siftupLoop arr pos
  siftdownGo (res.1.set res.2 newitem) pos newitem res.2

/-- `Heap.push`: append, then `_siftdown(array, 0, length - 1)`. -/
def heappush (arr : List HeapElem) (item : HeapElem) : List HeapElem :=
  siftdownGo (arr ++ [item]) 0 item arr.length

/-- `Heap.pop`: pop the last element, move it to the root, `_siftup`. -/
def heappop (arr : List HeapElem) : Option (HeapElem × List HeapElem) :=
  match arr.getLast? with
  | none => none
  | some lastelt =>
      let arr1 := arr.dropLast
      if arr1.isEmpty then some (lastelt, [])
      else some (arr1.getD 0 dfltElem, siftup (arr1.set 0 lastelt) 0)

/-- One iteration body of the `mergeStates` while-loop: resolve a
popped item against the accumulated output map. -/
def mergeStep (m : List (String × Stroke)) (sd : StrokeData) : List (String × Stroke) :=
  match sd with
  | .hide _ originUid _ => omDelete m originUid
  | .mutate _ originUid pathData _ =>
      match omLookup m originUid with
      | some s => omSet m originUid { s with pathData := pathData }
      | none => m
  | .stroke s => omSet m s.uid s

theorem siftdownGo_length (arr : List HeapElem) (startpos : Nat) (newitem : HeapElem)
    (pos : Nat) : (siftdownGo arr startpos newitem pos).length = arr.length := by
  induction arr, startpos, newitem, pos using siftdownGo.induct with
  | case1 arr startpos newitem pos h hcmp ih =>
      rw [siftdownGo, dif_pos h, if_pos hcmp, ih]
      simp
  | case2 arr startpos newitem pos h hcmp =>
      rw [siftdownGo, dif_pos h, if_neg hcmp]
      simp
  | case3 arr startpos newitem pos h =>
      rw [siftdownGo, dif_neg h]
      simp

theorem siftupLoop_length (arr : List HeapElem) (pos : Nat) :
    (siftupLoop arr pos).1.length = arr.length := by
  induction arr, pos using siftupLoop.induct with
  | case1 arr pos h h2 ih =>
      rw [siftupLoop, dif_pos h, dif_pos h2, ih]
      simp
  | case2 arr pos h h2 ih =>
      rw [siftupLoop, dif_pos h, dif_neg h2, ih]
      simp
  | case3 arr pos h =>
      rw [siftupLoop, dif_neg h]

theorem siftup_length (arr : List HeapElem) (pos : Nat) :
    (siftup arr pos).length = arr.length := by
  unfold siftup
  rw [siftdownGo_length]
  rw [List.length_set, siftupLoop_length]

theorem heappush_length (arr : List HeapElem) (item : HeapElem) :
    (heappush arr item).length = arr.length + 1 := by
  unfold heappush
  rw [siftdownGo_length]
  simp

theorem heappop_length (arr : List HeapElem) (x : HeapElem) (rest : List HeapElem)
    (h : heappop arr = some (x, rest)) : rest.length + 1 = arr.length := by
  unfold heappop at h
  cases hl : arr.getLast? with
  | none => rw [hl] at h; simp at h
  | some lastelt =>
      rw [hl] at h
      simp only at h
      have hne : arr ≠ [] := by
        intro hnil; rw [hnil] at hl; simp at hl
      by_cases he : arr.dropLast.isEmpty
      · rw [if_pos he] at h
        obtain ⟨h1, h2⟩ := Prod.mk.injEq .. ▸ Option.some.injEq .. ▸ h
        subst h2
        simp only [List.isEmpty_iff] at he
        have := List.length_dropLast arr
        rw [he] at this
        simp only [List.length_nil] at this
        have hpos : 0 < arr.length := List.length_pos.mpr hne
        simp only [List.length_nil]
        omega
      · rw [if_neg he] at h
        obtain ⟨h1, h2⟩ := Prod.mk.injEq .. ▸ Option.some.injEq .. ▸ h
        subst h2
        rw [siftup_length, List.length_set, List.length_dropLast]
        have hpos : 0 < arr.length := List.length_pos.mpr hne
        omega

theorem sum_map_length_set (l : List (List StrokeData)) (i : Nat)
    (ys zs : List StrokeData) (h : l[i]? = some ys) :
    ((l.set i zs).map List.length).sum + ys.length
      = (l.map List.length).sum + zs.length := by
  induction l generalizing i with
  | nil => simp at h
  | cons a l ih =>
      cases i with
      | zero =>
          simp only [List.getElem?_cons_zero, Option.some.injEq] at h
          subst h
          simp [Nat.add_assoc, Nat.add_comm, Nat.add_left_comm]
      | succ n =>
          simp only [List.getElem?_cons_succ] at h
          have := ih n h
          simp only [List.set_cons_succ, List.map_cons, List.sum_cons]
          omega

/-- The `while (heap.size() > 0)` loop of `mergeStates`; `cursors`
holds the not-yet-consumed tail of each snapshot's item stream. -/
def mergeLoop (cursors : List (List StrokeData)) (heap : List HeapElem)
    (acc : List (String × Stroke)) : List (String × Stroke) :=
  match hpop : heappop heap with
  | none => acc
  | some ((stroke, index), heap1) =>
      let acc1 := mergeStep acc stroke
      match hcur : cursors[index]? with
      | none => acc1
      | some [] => mergeLoop cursors heap1 acc1
      | some (x :: rest) =>
          mergeLoop (cursors.set index rest) (heappush heap1 (x, index)) acc1
termination_by heap.length + (cursors.map List.length).sum
decreasing_by
  · have := heappop_length heap _ _ hpop
    omega
  · have := heappop_length heap _ _ hpop
    have h2 := sum_map_length_set cursors index (x :: rest) rest hcur
    rw [heappush_length]
    simp only [List.length_cons] at h2
    omega

/-- The item stream of one snapshot: `getStrokeMap().values()` in
insertion order. -/
def strokeValues (ds : DrawState) : List StrokeData :=
  ds.record.strokes.map Prod.snd

/-- `DrawState.mergeStates(...states)`: prime the heap with each
stream's head, then run the merge loop. -/
def DrawState.mergeStates (states : List DrawState) : List (String × Stroke) :=
  let streams := states.map strokeValues
  let heap0 := (streams.map List.head?).enum.foldl
      (fun h p => match p.2 with
        | some s => heappush h (s, p.1)
        | none => h) []
  mergeLoop (streams.map List.tail) heap0 []

/-! ### Frame lemmas about page dimensions -/

theorem eraseStrokes_dims (env : UidEnv) (ds : DrawState) (erased : List String) :
    (DrawState.eraseStrokes env ds erased).width = ds.width ∧
    (DrawState.eraseStrokes env ds erased).height = ds.height := by
  unfold DrawState.eraseStrokes
  split <;> exact ⟨rfl, rfl⟩

theorem mutateStrokes_dims (env : UidEnv) (ds : DrawState)
    (mutations : List (String × String)) (ts : Int) :
    (DrawState.mutateStrokes env ds mutations ts).width = ds.width ∧
    (DrawState.mutateStrokes env ds mutations ts).height = ds.height := by
  unfold DrawState.mutateStrokes
  split <;> exact ⟨rfl, rfl⟩

theorem splitStrokes_dims (env : UidEnv) (ds : DrawState)
    (splitters : List (String × List String)) :
    (DrawState.splitStrokes env ds splitters).width = ds.width ∧
    (DrawState.splitStrokes env ds splitters).height = ds.height := by
  unfold DrawState.splitStrokes
  split <;> exact ⟨rfl, rfl⟩

theorem undo_dims (ds : DrawState) :
    (DrawState.undo ds).width = ds.width ∧ (DrawState.undo ds).height = ds.height := by
  unfold DrawState.undo
  split <;> exact ⟨rfl, rfl⟩

theorem redo_dims (ds : DrawState) :
    (DrawState.redo ds).width = ds.width ∧ (DrawState.redo ds).height = ds.height := by
  unfold DrawState.redo
  split <;> exact ⟨rfl, rfl⟩

/-- C9: every operation (pushStroke, pushStrokeList, eraseStrokes,
mutateStrokes, splitStrokes, undo, redo, and pushOperation with any
tag) preserves the page dimensions `width` and `height`. -/
theorem c9_dimensions_preserved :
    (∀ (ds : DrawState) (s : Stroke),
        (DrawState.pushStroke ds s).width = ds.width ∧
        (DrawState.pushStroke ds s).height = ds.height)
  ∧ (∀ (ds : DrawState) (l : List Stroke),
        (DrawState.pushStrokeList ds l).width = ds.width ∧
        (DrawState.pushStrokeList ds l).height = ds.height)
  ∧ (∀ (env : UidEnv) (ds : DrawState) (erased : List String),
        (DrawState.eraseStrokes env ds erased).width = ds.width ∧
        (DrawState.eraseStrokes env ds erased).height = ds.height)
  ∧ (∀ (env : UidEnv) (ds : DrawState) (m : List (String × String)) (ts : Int),
        (DrawState.mutateStrokes env ds m ts).width = ds.width ∧
        (DrawState.mutateStrokes env ds m ts).height = ds.height)
  ∧ (∀ (env : UidEnv) (ds : DrawState) (sp : List (String × List String)),
        (DrawState.splitStrokes env ds sp).width = ds.width ∧
        (DrawState.splitStrokes env ds sp).height = ds.height)
  ∧ (∀ (ds : DrawState),
        (DrawState.undo ds).width = ds.width ∧ (DrawState.undo ds).height = ds.height)
  ∧ (∀ (ds : DrawState),
        (DrawState.redo ds).width = ds.width ∧ (DrawState.redo ds).height = ds.height)
  ∧ (∀ (env : UidEnv) (ds : DrawState) (op : Operation),
        (DrawState.pushOperation env ds op).width = ds.width ∧
        (DrawState.pushOperation env ds op).height = ds.height) := by
  refine ⟨fun ds s => ⟨rfl, rfl⟩, fun ds l => ⟨rfl, rfl⟩, eraseStrokes_dims,
    mutateStrokes_dims, splitStrokes_dims, undo_dims, redo_dims, ?_⟩
  intro env ds op
  cases op with
  | add s => exact ⟨rfl, rfl⟩
  | add_list l => exact ⟨rfl, rfl⟩
  | erase erased => exact eraseStrokes_dims env ds erased
  | mutate m ts => exact mutateStrokes_dims env ds m ts
  | split sp => exact splitStrokes_dims env ds sp
  | undo => exact undo_dims ds
  | redo => exact redo_dims ds

/-! ### Undo / redo round trip -/

/-- C3: on any snapshot with non-empty history (in particular any
snapshot reached by content operations that pushed history),
`redo (undo ds)` has exactly the same item map as `ds`. -/
theorem c3_undo_redo_roundtrip (ds : DrawState) (h : ds.record.historyStack ≠ []) :
    (DrawState.redo (DrawState.undo ds)).record.strokes = ds.record.strokes := by
  unfold DrawState.undo
  cases hh : ds.record.historyStack with
  | nil => exact absurd hh h
  | cons r t => simp [DrawState.redo, DSRecord.undoStack]

/-- Witness for C3 at a concrete snapshot with one history entry. -/
theorem c3_witness :
    (DrawState.redo (DrawState.undo
      { record := .mk [("a", .stroke ⟨"a", "p", 1⟩)] [] [] [.mk [] [] [] []],
        width := 2, height := 3 })).record.strokes
      = [("a", .stroke ⟨"a", "p", 1⟩)] := by
  exact c3_undo_redo_roundtrip
    { record := .mk [("a", .stroke ⟨"a", "p", 1⟩)] [] [] [.mk [] [] [] []],
      width := 2, height := 3 }
    (List.cons_ne_nil _ _)

/-! ### Which operations clear the undo stack -/

/-- C4: `splitStrokes` with a non-empty splitter list keeps the undo
stack and pushes onto the history stack, while `eraseStrokes`,
`mutateStrokes` (non-empty inputs) and `pushStroke` all return a
snapshot with an empty undo stack. -/
theorem c4_split_keeps_undo_stack :
    (∀ (env : UidEnv) (ds : DrawState) (sp : List (String × List String)), sp ≠ [] →
        (DrawState.splitStrokes env ds sp).record.undoStack = ds.record.undoStack ∧
        (DrawState.splitStrokes env ds sp).record.historyStack
          = ds.record :: ds.record.historyStack)
  ∧ (∀ (env : UidEnv) (ds : DrawState) (erased : List String), erased ≠ [] →
        (DrawState.eraseStrokes env ds erased).record.undoStack = [])
  ∧ (∀ (env : UidEnv) (ds : DrawState) (m : List (String × String)) (ts : Int), m ≠ [] →
        (DrawState.mutateStrokes env ds m ts).record.undoStack = [])
  ∧ (∀ (ds : DrawState) (s : Stroke),
        (DrawState.pushStroke ds s).record.undoStack = []) := by
  refine ⟨?_, ?_, ?_, fun ds s => rfl⟩
  · intro env ds sp h
    unfold DrawState.splitStrokes
    rw [if_neg h]
    exact ⟨rfl, rfl⟩
  · intro env ds erased h
    unfold DrawState.eraseStrokes
    rw [if_neg h]
    exact rfl
  · intro env ds m ts h
    unfold DrawState.mutateStrokes
    rw [if_neg h]
    exact rfl

/-- A concrete environment for witnesses: deterministic stand-ins for
the external uuid generator and clock. -/
def witEnv : UidEnv :=
  { freshU := fun i => "fresh" ++ toString i,
    nowF := fun i => 100 + (i : Int),
    validate := fun _ => true,
    v5 := fun name ns => ns ++ "." ++ name,
    nilNs := "nil" }

/-- A concrete snapshot with one stroke, used by several witnesses. -/
def witDS : DrawState :=
  { record := .mk [("a", .stroke ⟨"a", "p", 1⟩)] [] [.mk [] [] [] []] [],
    width := 2, height := 3 }

/-- Witness for C4 at concrete inputs (note `witDS` has a non-empty
undo stack, which `splitStrokes` keeps and `eraseStrokes` clears). -/
theorem c4_witness :
    ((DrawState.splitStrokes witEnv witDS [("a", ["q", "r"])]).record.undoStack
        = witDS.record.undoStack ∧
      (DrawState.splitStrokes witEnv witDS [("a", ["q", "r"])]).record.historyStack
        = witDS.record :: witDS.record.historyStack)
    ∧ (DrawState.eraseStrokes witEnv witDS ["a"]).record.undoStack = []
    ∧ (DrawState.mutateStrokes witEnv witDS [("a", "q")] 7).record.undoStack = []
    ∧ (DrawState.pushStroke witDS ⟨"b", "q", 2⟩).record.undoStack = [] := by
  exact ⟨c4_split_keeps_undo_stack.1 witEnv witDS [("a", ["q", "r"])] (by simp),
    c4_split_keeps_undo_stack.2.1 witEnv witDS ["a"] (by simp),
    c4_split_keeps_undo_stack.2.2.1 witEnv witDS [("a", "q")] 7 (by simp),
    c4_split_keeps_undo_stack.2.2.2 witDS ⟨"b", "q", 2⟩⟩

/-! ### Ordered-map lemmas -/

theorem omLookup_omSet_self {α : Type} (m : List (String × α)) (k : String) (v : α) :
    omLookup (omSet m k v) k = some v := by
  induction m with
  | nil => simp [omSet, omLookup]
  | cons p rest ih =>
      obtain ⟨a, b⟩ := p
      by_cases h : a = k
      · simp [omSet, omLookup, h]
      · simp [omSet, omLookup, h, ih]

theorem omLookup_omSet_ne {α : Type} (m : List (String × α)) (k : String) (v : α)
    (k' : String) (h : k' ≠ k) : omLookup (omSet m k v) k' = omLookup m k' := by
  have hk : ¬ k = k' := fun e => h e.symm
  induction m with
  | nil => simp [omSet, omLookup, hk]
  | cons p rest ih =>
      obtain ⟨a, b⟩ := p
      by_cases ha : a = k
      · subst ha
        simp [omSet, omLookup, hk]
      · by_cases ha' : a = k'
        · subst ha'
          simp [omSet, omLookup, ha]
        · simp [omSet, omLookup, ha, ha', ih]

theorem omLookup_omDelete_self {α : Type} (m : List (String × α)) (k : String) :
    omLookup (omDelete m k) k = none := by
  induction m with
  | nil => simp [omDelete, omLookup]
  | cons p rest ih =>
      obtain ⟨a, b⟩ := p
      by_cases h : a = k
      · simpa [omDelete, h] using ih
      · simpa [omDelete, omLookup, h] using ih

theorem omLookup_omDelete_ne {α : Type} (m : List (String × α)) (k k' : String)
    (h : k' ≠ k) : omLookup (omDelete m k) k' = omLookup m k' := by
  have hk : ¬ k = k' := fun e => h e.symm
  induction m with
  | nil => simp [omDelete, omLookup]
  | cons p rest ih =>
      obtain ⟨a, b⟩ := p
      by_cases ha : a = k
      · subst ha
        simpa [omDelete, omLookup, hk] using ih
      · by_cases ha' : a = k'
        · subst ha'
          simp [omDelete, omLookup, ha]
        · simpa [omDelete, omLookup, ha, ha'] using ih

theorem omKeys_omSet_present {α : Type} (m : List (String × α)) (k : String) (v : α)
    (h : (omLookup m k).isSome = true) :
    (omSet m k v).map Prod.fst = m.map Prod.fst := by
  induction m with
  | nil => simp [omLookup] at h
  | cons p rest ih =>
      obtain ⟨a, b⟩ := p
      by_cases ha : a = k
      · simp [omSet, ha]
      · simp only [omLookup, if_neg ha] at h
        simp [omSet, ha, ih h]

theorem omLookup_omDeleteAll_none {α : Type} (l : List String) (m : List (String × α))
    (u : String) (h : omLookup m u = none) : omLookup (omDeleteAll m l) u = none := by
  induction l generalizing m with
  | nil => exact h
  | cons a t ih =>
      show omLookup (omDeleteAll (omDelete m a) t) u = none
      apply ih
      by_cases ha : u = a
      · subst ha; exact omLookup_omDelete_self m u
      · rw [omLookup_omDelete_ne m a u ha]; exact h

theorem omLookup_omDeleteAll_mem {α : Type} (l : List String) (m : List (String × α))
    (u : String) (h : u ∈ l) : omLookup (omDeleteAll m l) u = none := by
  induction l generalizing m with
  | nil => simp at h
  | cons a t ih =>
      show omLookup (omDeleteAll (omDelete m a) t) u = none
      by_cases ha : u ∈ t
      · exact ih (omDelete m a) ha
      · have hua : u = a := by
          rcases List.mem_cons.mp h with h1 | h2
          · exact h1
          · exact absurd h2 ha
        subst hua
        exact omLookup_omDeleteAll_none t (omDelete m u) u (omLookup_omDelete_self m u)

/-! ### Tombstone-insertion lemmas for `eraseStrokes` -/

theorem addTombstones_lookup_other (env : UidEnv) (hs : List String) :
    ∀ (sm : List (String × StrokeData)) (i : Nat) (u : String),
    (∀ j, j < hs.length → env.freshU (i + j) ≠ u) →
    omLookup (addTombstones env sm hs i) u = omLookup sm u := by
  induction hs with
  | nil => intro sm i u _; rfl
  | cons h t ih =>
      intro sm i u hne
      show omLookup (addTombstones env (omSet sm (env.freshU i) _) t (i + 1)) u = _
      rw [ih _ (i + 1) u ?later]
      case later =>
        intro j hj
        have : i + 1 + j = i + (j + 1) := by omega
        rw [this]
        exact hne (j + 1) (by simpa using Nat.succ_lt_succ hj)
      exact omLookup_omSet_ne sm (env.freshU i) _ u
        (fun e => hne 0 (by simp) (by simpa using e.symm))

theorem addTombstones_lookup_fresh (env : UidEnv) (hs : List String) :
    ∀ (sm : List (String × StrokeData)) (i : Nat) (j : Nat) (hj : j < hs.length),
    (∀ j1 j2, j1 < hs.length → j2 < hs.length →
        env.freshU (i + j1) = env.freshU (i + j2) → j1 = j2) →
    omLookup (addTombstones env sm hs i) (env.freshU (i + j))
      = some (.hide (env.freshU (i + j)) (hs.get ⟨j, hj⟩) (env.nowF (i + j))) := by
  induction hs with
  | nil => intro sm i j hj _; simp at hj
  | cons h t ih =>
      intro sm i j hj hinj
      cases j with
      | zero =>
          show omLookup (addTombstones env (omSet sm (env.freshU i) _) t (i + 1)) _ = _
          rw [addTombstones_lookup_other env t _ (i + 1) _ ?fr]
          case fr =>
            intro j' hj' he
            have h1 : i + 1 + j' = i + (j' + 1) := by omega
            rw [h1] at he
            have := hinj (j' + 1) 0 (by simpa using Nat.succ_lt_succ hj') (by simp)
              (by simpa using he)
            simp at this
          simpa using omLookup_omSet_self sm (env.freshU (i + 0)) _
      | succ jj =>
          show omLookup (addTombstones env (omSet sm (env.freshU i) _) t (i + 1)) _ = _
          have harith : ∀ x : Nat, i + 1 + x = i + (x + 1) := by intro x; omega
          have hj' : jj < t.length := by simpa using Nat.lt_of_succ_lt_succ hj
          have := ih (omSet sm (env.freshU i) (.hide (env.freshU i) h (env.nowF i)))
            (i + 1) jj hj' ?innerinj
          case innerinj =>
            intro j1 j2 h1 h2 he
            rw [harith j1, harith j2] at he
            have := hinj (j1 + 1) (j2 + 1) (by simpa using Nat.succ_lt_succ h1)
              (by simpa using Nat.succ_lt_succ h2) he
            omega
          rw [harith jj] at this
          exact this

/-- C5: `eraseStrokes` is a no-op on the empty list; otherwise it
pushes the previous record onto the history stack, clears the undo
stack, removes every listed UID from the item map (given that the
fresh tombstone UIDs do not collide with the erased ones), and inserts
a fresh tombstone `HIDE` item for each listed UID that was absent from
the item map, in order. -/
theorem c5_eraseStrokes_spec (env : UidEnv) (ds : DrawState) (erased : List String)
    (hidden : List String)
    (hh : hidden = erased.filter (fun uid => !(omHas ds.record.strokes uid))) :
    (erased = [] → DrawState.eraseStrokes env ds erased = ds)
  ∧ (erased ≠ [] →
      (DrawState.eraseStrokes env ds erased).record.historyStack
          = ds.record :: ds.record.historyStack
      ∧ (DrawState.eraseStrokes env ds erased).record.undoStack = []
      ∧ ((∀ i, i < hidden.length → env.freshU i ∉ erased) →
          ∀ u ∈ erased,
            omLookup (DrawState.eraseStrokes env ds erased).record.strokes u = none)
      ∧ ((∀ i j, i < hidden.length → j < hidden.length →
              env.freshU i = env.freshU j → i = j) →
          ∀ j (hj : j < hidden.length),
            omLookup (DrawState.eraseStrokes env ds erased).record.strokes (env.freshU j)
              = some (.hide (env.freshU j) (hidden.get ⟨j, hj⟩) (env.nowF j)))) := by
  constructor
  · intro he
    unfold DrawState.eraseStrokes
    rw [if_pos he]
  · intro hne
    have hrec : (DrawState.eraseStrokes env ds erased).record
        = .mk (addTombstones env (omDeleteAll ds.record.strokes erased) hidden 0)
            ds.record.mutationPairs [] (ds.record :: ds.record.historyStack) := by
      unfold DrawState.eraseStrokes
      rw [if_neg hne, hh]
    refine ⟨by rw [hrec]; rfl, by rw [hrec]; rfl, ?_, ?_⟩
    · intro hfr u hu
      rw [hrec]
      show omLookup (addTombstones env (omDeleteAll ds.record.strokes erased) hidden 0) u
        = none
      rw [addTombstones_lookup_other env hidden _ 0 u
        (fun j hj he2 => (hfr j hj) (by rw [← he2] at hu; simpa using hu))]
      exact omLookup_omDeleteAll_mem erased ds.record.strokes u hu
    · intro hinj j hj
      have h4 := addTombstones_lookup_fresh env hidden
        (omDeleteAll ds.record.strokes erased) 0 j hj
        (fun j1 j2 h1 h2 he2 => hinj j1 j2 h1 h2 (by simpa using he2))
      rw [hrec]
      simpa [DSRecord.strokes] using h4

/-- Witness for C5: erase a present UID "a" and an absent UID "b". -/
theorem c5_witness :
    omLookup (DrawState.eraseStrokes witEnv witDS ["a", "b"]).record.strokes "a" = none
    ∧ omLookup (DrawState.eraseStrokes witEnv witDS ["a", "b"]).record.strokes
        (witEnv.freshU 0) = some (.hide (witEnv.freshU 0) "b" (witEnv.nowF 0))
    ∧ (DrawState.eraseStrokes witEnv witDS ["a", "b"]).record.undoStack = [] := by
  have h := c5_eraseStrokes_spec witEnv witDS ["a", "b"] ["b"] (by decide)
  have h2 := h.2 (by simp)
  refine ⟨h2.2.2.1 ?f1 "a" (by simp), ?_, h2.2.1⟩
  · intro i hi
    have : i = 0 := by simpa using hi
    subst this
    decide
  · have h3 := h2.2.2.2 ?inj 0 (by simp)
    case inj =>
      intro i j hi hj _
      have : i = 0 := by simpa using hi
      have : j = 0 := by simpa using hj
      omega
    simpa using h3

/-! ### The MUTATE resolution step of the merge -/

/-- C7: when the merge pops a `MUTATE` record whose origin is absent
from the output map, the map is unchanged (no entry is added); when
the origin is present, only its `pathData` is replaced — the key set,
entry order, UID and the other entries are untouched. -/
theorem c7_merge_mutate_step (m : List (String × Stroke)) (u o pd : String) (ts : Int) :
    (omLookup m o = none → mergeStep m (.mutate u o pd ts) = m)
  ∧ (∀ s, omLookup m o = some s →
      mergeStep m (.mutate u o pd ts) = omSet m o { s with pathData := pd }
      ∧ (mergeStep m (.mutate u o pd ts)).map Prod.fst = m.map Prod.fst
      ∧ omLookup (mergeStep m (.mutate u o pd ts)) o = some { s with pathData := pd }
      ∧ ∀ k, k ≠ o → omLookup (mergeStep m (.mutate u o pd ts)) k = omLookup m k) := by
  constructor
  · intro h
    simp only [mergeStep]
    rw [h]
  · intro s h
    have he : mergeStep m (.mutate u o pd ts) = omSet m o { s with pathData := pd } := by
      simp only [mergeStep]
      rw [h]
    refine ⟨he, ?_, ?_, ?_⟩
    · rw [he]
      exact omKeys_omSet_present m o _ (by rw [h]; rfl)
    · rw [he, omLookup_omSet_self]
    · intro k hk
      rw [he, omLookup_omSet_ne _ _ _ _ hk]

/-- Witness for C7 at a concrete one-entry output map. -/
theorem c7_witness :
    mergeStep [("a", ⟨"a", "p", 1⟩)] (.mutate "m1" "b" "q" 9) = [("a", ⟨"a", "p", 1⟩)]
    ∧ mergeStep [("a", ⟨"a", "p", 1⟩)] (.mutate "m1" "a" "q" 9)
        = [("a", ⟨"a", "q", 1⟩)] := by
  refine ⟨(c7_merge_mutate_step [("a", ⟨"a", "p", 1⟩)] "m1" "b" "q" 9).1 (by decide), ?_⟩
  have h := ((c7_merge_mutate_step [("a", ⟨"a", "p", 1⟩)] "m1" "a" "q" 9).2
    ⟨"a", "p", 1⟩ (by decide)).1
  rw [h]
  decide

/-! ### Small-heap evaluation lemmas -/

theorem heappush_nil (x : HeapElem) : heappush [] x = [x] := by
  unfold heappush
  rw [siftdownGo]
  simp

theorem heappush_one (a b : HeapElem) :
    heappush [a] b = if heapLt b a then [b, a] else [a, b] := by
  unfold heappush
  rw [siftdownGo]
  by_cases h : heapLt b a = true
  · simp only [List.cons_append, List.nil_append, List.length_cons, List.length_nil,
      Nat.zero_add, Nat.lt_irrefl, List.getD]
    rw [siftdownGo]
    simp [h]
  · simp [h]

theorem heappop_one (x : HeapElem) : heappop [x] = some (x, []) := by
  simp [heappop]

theorem heappop_two (x y : HeapElem) : heappop [x, y] = some (x, [y]) := by
  have hsl : siftupLoop [y] 0 = ([y], 0) := by
    rw [siftupLoop]
    simp
  have hsu : siftup [y] 0 = [y] := by
    unfold siftup
    rw [hsl]
    simp only
    rw [siftdownGo]
    simp
  simp [heappop, hsu]

/-! ### Unfolding lemmas for the merge loop -/

theorem mergeLoop_eq_none (cursors : List (List StrokeData)) (heap : List HeapElem)
    (acc : List (String × Stroke)) (h : heappop heap = none) :
    mergeLoop cursors heap acc = acc := by
  rw [mergeLoop]
  split
  · rfl
  · rename_i heq
    rw [h] at heq
    cases heq

theorem mergeLoop_eq_done (cursors : List (List StrokeData)) (heap heap1 : List HeapElem)
    (acc : List (String × Stroke)) (s : StrokeData) (i : Nat)
    (h : heappop heap = some ((s, i), heap1)) (h2 : cursors[i]? = none) :
    mergeLoop cursors heap acc = mergeStep acc s := by
  rw [mergeLoop]
  split
  · rename_i heq
    rw [h] at heq
    cases heq
  · rename_i s' i' heap1' heq
    rw [h] at heq
    injection heq with heq1
    injection heq1 with heq2 heq3
    injection heq2 with heq4 heq5
    subst heq4; subst heq5; subst heq3
    split
    · rfl
    · rename_i heq6
      rw [h2] at heq6
      cases heq6
    · rename_i heq6
      rw [h2] at heq6
      cases heq6

theorem mergeLoop_eq_wait (cursors : List (List StrokeData)) (heap heap1 : List HeapElem)
    (acc : List (String × Stroke)) (s : StrokeData) (i : Nat)
    (h : heappop heap = some ((s, i), heap1)) (h2 : cursors[i]? = some []) :
    mergeLoop cursors heap acc = mergeLoop cursors heap1 (mergeStep acc s) := by
  rw [mergeLoop]
  split
  · rename_i heq
    rw [h] at heq
    cases heq
  · rename_i s' i' heap1' heq
    rw [h] at heq
    injection heq with heq1
    injection heq1 with heq2 heq3
    injection heq2 with heq4 heq5
    subst heq4; subst heq5; subst heq3
    split
    · rename_i heq6
      rw [h2] at heq6
      cases heq6
    · rfl
    · rename_i heq6
      rw [h2] at heq6
      cases heq6

theorem mergeLoop_eq_push (cursors : List (List StrokeData)) (heap heap1 : List HeapElem)
    (acc : List (String × Stroke)) (s x : StrokeData) (rest : List StrokeData) (i : Nat)
    (h : heappop heap = some ((s, i), heap1)) (h2 : cursors[i]? = some (x :: rest)) :
    mergeLoop cursors heap acc
      = mergeLoop (cursors.set i rest) (heappush heap1 (x, i)) (mergeStep acc s) := by
  rw [mergeLoop]
  split
  · rename_i heq
    rw [h] at heq
    cases heq
  · rename_i s' i' heap1' heq
    rw [h] at heq
    injection heq with heq1
    injection heq1 with heq2 heq3
    injection heq2 with heq4 heq5
    subst heq4; subst heq5; subst heq3
    split
    · rename_i heq6
      rw [h2] at heq6
      cases heq6
    · rename_i heq6
      rw [h2] at heq6
      cases heq6
    · rename_i x' rest' heq6
      rw [h2] at heq6
      injection heq6 with heq7
      injection heq7 with heq8 heq9
      subst heq8; subst heq9
      rfl

/-! ### Single-snapshot merge: insertion-order fold -/

theorem mergeLoop_single (xs : List StrokeData) :
    ∀ (a : StrokeData) (acc : List (String × Stroke)),
    mergeLoop [xs] [(a, 0)] acc = (a :: xs).foldl mergeStep acc := by
  induction xs with
  | nil =>
      intro a acc
      rw [mergeLoop_eq_wait [[]] [(a, 0)] [] acc a 0 (heappop_one (a, 0)) (by simp)]
      rw [mergeLoop_eq_none [[]] [] _ (by simp [heappop])]
      simp
  | cons x rest ih =>
      intro a acc
      rw [mergeLoop_eq_push [x :: rest] [(a, 0)] [] acc a x rest 0
        (heappop_one (a, 0)) (by simp)]
      rw [heappush_nil]
      simp only [List.set]
      rw [ih x (mergeStep acc a)]
      simp

/-- Modelled from the spec's item-resolution rules (§4.5): a left fold
over an item sequence in insertion order, applying the STROKE (insert
under its own UID), HIDE (delete origin) and MUTATE (replace pathData
when origin present, else drop) rules. -/
def mergeInsertionFold (items : List StrokeData) : List (String × Stroke) :=
  items.foldl
    (fun m it =>
      match it with
      | .stroke s => omSet m s.uid s
      | .hide _ originUid _ => omDelete m originUid
      | .mutate _ originUid pathData _ =>
          match omLookup m originUid with
          | some s => omSet m originUid { s with pathData := pathData }
          | none => m)
    []

theorem foldl_mergeStep_eq (items : List StrokeData) :
    ∀ (acc : List (String × Stroke)),
    items.foldl mergeStep acc
      = items.foldl
          (fun m it =>
            match it with
            | .stroke s => omSet m s.uid s
            | .hide _ originUid _ => omDelete m originUid
            | .mutate _ originUid pathData _ =>
                match omLookup m originUid with
                | some s => omSet m originUid { s with pathData := pathData }
                | none => m)
          acc := by
  induction items with
  | nil => intro acc; rfl
  | cons it rest ih =>
      intro acc
      simp only [List.foldl_cons]
      rw [ih]
      cases it <;> rfl

/-- C10: merging a single snapshot processes its items exactly in
insertion order, ignoring timestamps: the result is the left fold of
the spec's STROKE/HIDE/MUTATE resolution rules over the item stream. -/
theorem c10_single_snapshot_insertion_order (ds : DrawState) :
    DrawState.mergeStates [ds] = mergeInsertionFold (strokeValues ds) := by
  unfold DrawState.mergeStates mergeInsertionFold
  rw [← foldl_mergeStep_eq]
  cases h : strokeValues ds with
  | nil =>
      simp only [List.map_cons, List.map_nil, h, List.head?, List.tail, List.enum]
      rw [mergeLoop_eq_none _ _ _ (by simp [heappop])]
      simp
  | cons a rest =>
      simp only [List.map_cons, List.map_nil, h, List.head?, List.tail, List.enum]
      have : (List.enumFrom 0 [some a]).foldl
          (fun h p => match p.2 with
            | some s => heappush h (s, p.1)
            | none => h) [] = heappush [] (a, 0) := rfl
      simp only [List.enumFrom] at this ⊢
      rw [this, heappush_nil, mergeLoop_single rest a []]

/-! ### Two-snapshot merge: correspondence with a two-pointer
timestamp merge, assuming no timestamp ties -/

/-- Reference order for the two-snapshot merge: repeatedly emit the
stream head with the strictly smaller timestamp (left head on ties). -/
def mseq : List StrokeData → List StrokeData → List StrokeData
  | [], ys => ys
  | x :: xs, [] => x :: xs
  | x :: xs, y :: ys =>
      if y.timestamp < x.timestamp then y :: mseq (x :: xs) ys
      else x :: mseq xs (y :: ys)
termination_by xs ys => xs.length + ys.length

/-- All items in the list have pairwise distinct timestamps. -/
def DistinctTs (l : List StrokeData) : Prop :=
  l.Pairwise (fun a b => a.timestamp ≠ b.timestamp)

instance (l : List StrokeData) : Decidable (DistinctTs l) := by
  unfold DistinctTs
  infer_instance

theorem heapLt_iff (a b : HeapElem) :
    heapLt a b = true ↔ a.1.timestamp < b.1.timestamp := by
  simp [heapLt, Int.sub_neg]

theorem mergeLoop_right_dead (xs : List StrokeData) :
    ∀ (a : StrokeData) (acc : List (String × Stroke)),
    mergeLoop [xs, []] [(a, 0)] acc = (a :: xs).foldl mergeStep acc := by
  induction xs with
  | nil =>
      intro a acc
      rw [mergeLoop_eq_wait [[], []] [(a, 0)] [] acc a 0 (heappop_one (a, 0)) (by simp)]
      rw [mergeLoop_eq_none _ [] _ (by simp [heappop])]
      simp
  | cons x rest ih =>
      intro a acc
      rw [mergeLoop_eq_push [x :: rest, []] [(a, 0)] [] acc a x rest 0
        (heappop_one (a, 0)) (by simp)]
      rw [heappush_nil]
      simp only [List.set]
      rw [ih x (mergeStep acc a)]
      simp

theorem mergeLoop_left_dead (ys : List StrokeData) :
    ∀ (b : StrokeData) (acc : List (String × Stroke)),
    mergeLoop [[], ys] [(b, 1)] acc = (b :: ys).foldl mergeStep acc := by
  induction ys with
  | nil =>
      intro b acc
      rw [mergeLoop_eq_wait [[], []] [(b, 1)] [] acc b 1 (heappop_one (b, 1)) (by simp)]
      rw [mergeLoop_eq_none _ [] _ (by simp [heappop])]
      simp
  | cons y rest ih =>
      intro b acc
      rw [mergeLoop_eq_push [[], y :: rest] [(b, 1)] [] acc b y rest 1
        (heappop_one (b, 1)) (by simp)]
      rw [heappush_nil]
      simp only [List.set]
      rw [ih y (mergeStep acc b)]
      simp

theorem distinct_head_ne (a b : StrokeData) (xs ys : List StrokeData)
    (hd : DistinctTs ((a :: xs) ++ b :: ys)) : a.timestamp ≠ b.timestamp := by
  unfold DistinctTs at hd
  rw [List.cons_append, List.pairwise_cons] at hd
  exact hd.1 b (by simp)

theorem distinct_drop_head (a : StrokeData) (l : List StrokeData)
    (hd : DistinctTs (a :: l)) : DistinctTs l := by
  unfold DistinctTs at hd ⊢
  exact (List.pairwise_cons.mp hd).2

theorem distinct_cons_append_tail (a : StrokeData) (xs l : List StrokeData)
    (hd : DistinctTs ((a :: xs) ++ l)) : DistinctTs (xs ++ l) := by
  unfold DistinctTs at hd ⊢
  rw [List.cons_append] at hd
  exact (List.pairwise_cons.mp hd).2

theorem distinct_drop_mid (xs : List StrokeData) (b : StrokeData) (ys : List StrokeData)
    (hd : DistinctTs (xs ++ b :: ys)) : DistinctTs (xs ++ ys) := by
  unfold DistinctTs at hd ⊢
  exact hd.sublist (List.Sublist.append_left (List.Sublist.cons b (List.Sublist.refl ys)) xs)

theorem mergeLoop_two (n : Nat) :
    ∀ (xs ys : List StrokeData) (a b : StrokeData) (acc : List (String × Stroke)),
    xs.length + ys.length ≤ n →
    DistinctTs ((a :: xs) ++ b :: ys) →
    (a.timestamp < b.timestamp →
        mergeLoop [xs, ys] [(a, 0), (b, 1)] acc
          = (mseq (a :: xs) (b :: ys)).foldl mergeStep acc)
    ∧ (b.timestamp < a.timestamp →
        mergeLoop [xs, ys] [(b, 1), (a, 0)] acc
          = (mseq (a :: xs) (b :: ys)).foldl mergeStep acc) := by
  induction n with
  | zero =>
      intro xs ys a b acc hn hd
      have hxs : xs = [] := by
        cases xs with
        | nil => rfl
        | cons _ _ => simp at hn
      have hys : ys = [] := by
        cases ys with
        | nil => rfl
        | cons _ _ => simp at hn
      subst hxs; subst hys
      constructor
      · intro hab
        have hms : mseq [a] [b] = [a, b] := by
          rw [mseq, if_neg (fun hlt => absurd hab (not_lt_of_gt hlt)), mseq]
        rw [mergeLoop_eq_wait [[], []] [(a, 0), (b, 1)] [(b, 1)] acc a 0
          (heappop_two (a, 0) (b, 1)) (by simp)]
        rw [mergeLoop_eq_wait [[], []] [(b, 1)] [] _ b 1 (heappop_one (b, 1)) (by simp)]
        rw [mergeLoop_eq_none _ [] _ (by simp [heappop])]
        rw [hms]
        simp
      · intro hba
        have hms : mseq [a] [b] = [b, a] := by
          rw [mseq, if_pos hba, mseq]
        rw [mergeLoop_eq_wait [[], []] [(b, 1), (a, 0)] [(a, 0)] acc b 1
          (heappop_two (b, 1) (a, 0)) (by simp)]
        rw [mergeLoop_eq_wait [[], []] [(a, 0)] [] _ a 0 (heappop_one (a, 0)) (by simp)]
        rw [mergeLoop_eq_none _ [] _ (by simp [heappop])]
        rw [hms]
        simp
  | succ n ih =>
      intro xs ys a b acc hn hd
      constructor
      · intro hab
        have hms : mseq (a :: xs) (b :: ys) = a :: mseq xs (b :: ys) := by
          rw [mseq, if_neg (fun hlt => absurd hab (not_lt_of_gt hlt))]
        cases hxs : xs with
        | nil =>
            rw [mergeLoop_eq_wait [[], ys] [(a, 0), (b, 1)] [(b, 1)] acc a 0
              (heappop_two (a, 0) (b, 1)) (by simp)]
            rw [mergeLoop_left_dead ys b (mergeStep acc a)]
            subst hxs
            rw [hms]
            have hms2 : mseq ([] : List StrokeData) (b :: ys) = b :: ys := by rw [mseq]
            rw [hms2]
            simp
        | cons x xs' =>
            subst hxs
            rw [mergeLoop_eq_push [x :: xs', ys] [(a, 0), (b, 1)] [(b, 1)] acc a x xs' 0
              (heappop_two (a, 0) (b, 1)) (by simp)]
            rw [heappush_one (b, 1) (x, 0)]
            simp only [List.set]
            have hd3 : DistinctTs ((x :: xs') ++ b :: ys) :=
              distinct_cons_append_tail a _ _ hd
            have hne : x.timestamp ≠ b.timestamp := distinct_head_ne x b xs' ys hd3
            have hlen : xs'.length + ys.length ≤ n := by
              simp at hn
              omega
            rw [hms]
            rcases lt_or_gt_of_ne hne with hxb | hbx
            · rw [if_pos ((heapLt_iff (x, 0) (b, 1)).mpr hxb)]
              rw [(ih xs' ys x b (mergeStep acc a) hlen hd3).1 hxb]
              simp
            · rw [if_neg (by
                intro hcon
                exact absurd ((heapLt_iff (x, 0) (b, 1)).mp hcon) (not_lt_of_gt hbx))]
              rw [(ih xs' ys x b (mergeStep acc a) hlen hd3).2 hbx]
              simp
      · intro hba
        have hms : mseq (a :: xs) (b :: ys) = b :: mseq (a :: xs) ys := by
          rw [mseq, if_pos hba]
        cases hys : ys with
        | nil =>
            rw [mergeLoop_eq_wait [xs, []] [(b, 1), (a, 0)] [(a, 0)] acc b 1
              (heappop_two (b, 1) (a, 0)) (by simp)]
            rw [mergeLoop_right_dead xs a (mergeStep acc b)]
            subst hys
            rw [hms]
            have hms2 : mseq (a :: xs) ([] : List StrokeData) = a :: xs := by rw [mseq]
            rw [hms2]
            simp
        | cons y ys' =>
            subst hys
            rw [mergeLoop_eq_push [xs, y :: ys'] [(b, 1), (a, 0)] [(a, 0)] acc b y ys' 1
              (heappop_two (b, 1) (a, 0)) (by simp)]
            rw [heappush_one (a, 0) (y, 1)]
            simp only [List.set]
            have hd3 : DistinctTs ((a :: xs) ++ y :: ys') := by
              have hsub : ((a :: xs) ++ y :: ys').Sublist ((a :: xs) ++ b :: y :: ys') :=
                List.Sublist.append_left
                  (List.Sublist.cons b (List.Sublist.refl (y :: ys'))) (a :: xs)
              exact hd.sublist hsub
            have hne : y.timestamp ≠ a.timestamp :=
              fun e => distinct_head_ne a y xs ys' hd3 e.symm
            have hlen : xs.length + ys'.length ≤ n := by
              simp at hn
              omega
            rw [hms]
            rcases lt_or_gt_of_ne hne with hya | hay
            · rw [if_pos ((heapLt_iff (y, 1) (a, 0)).mpr hya)]
              rw [(ih xs ys' a y (mergeStep acc b) hlen hd3).2 hya]
              simp
            · rw [if_neg (by
                intro hcon
                exact absurd ((heapLt_iff (y, 1) (a, 0)).mp hcon) (not_lt_of_gt hay))]
              rw [(ih xs ys' a y (mergeStep acc b) hlen hd3).1 hay]
              simp

theorem mergeStates_pair_eq (A B : DrawState) :
    DrawState.mergeStates [A, B]
      = mergeLoop [(strokeValues A).tail, (strokeValues B).tail]
          (([((strokeValues A).head?, 0), ((strokeValues B).head?, 1)].foldl
            (fun h p => match p.1 with
              | some s => heappush h (s, p.2)
              | none => h) []))
          [] := by
  unfold DrawState.mergeStates
  rfl

theorem mergeStates_two (A B : DrawState)
    (hd : DistinctTs (strokeValues A ++ strokeValues B)) :
    DrawState.mergeStates [A, B]
      = (mseq (strokeValues A) (strokeValues B)).foldl mergeStep [] := by
  rw [mergeStates_pair_eq]
  cases hA : strokeValues A with
  | nil =>
      cases hB : strokeValues B with
      | nil =>
          simp only [List.head?, List.tail, List.foldl]
          rw [mergeLoop_eq_none _ _ _ (by simp [heappop])]
          rw [mseq]
          rfl
      | cons b ys =>
          simp only [List.head?, List.tail, List.foldl]
          rw [heappush_nil, mergeLoop_left_dead ys b []]
          rw [mseq]
  | cons a xs =>
      cases hB : strokeValues B with
      | nil =>
          simp only [List.head?, List.tail, List.foldl]
          rw [heappush_nil, mergeLoop_right_dead xs a []]
          rw [mseq]
      | cons b ys =>
          simp only [List.head?, List.tail, List.foldl]
          rw [heappush_nil, heappush_one (a, 0) (b, 1)]
          have hd2 : DistinctTs ((a :: xs) ++ b :: ys) := by
            rw [hA, hB] at hd
            exact hd
          have hne : a.timestamp ≠ b.timestamp := distinct_head_ne a b xs ys hd2
          rcases lt_or_gt_of_ne hne with hab | hba
          · rw [if_neg (by
              intro hcon
              exact absurd ((heapLt_iff (b, 1) (a, 0)).mp hcon) (not_lt_of_gt hab))]
            exact (mergeLoop_two (xs.length + ys.length) xs ys a b [] le_rfl hd2).1 hab
          · rw [if_pos ((heapLt_iff (b, 1) (a, 0)).mpr hba)]
            exact (mergeLoop_two (xs.length + ys.length) xs ys a b [] le_rfl hd2).2 hba

theorem mseq_comm : ∀ (xs ys : List StrokeData), DistinctTs (xs ++ ys) →
    mseq xs ys = mseq ys xs := by
  intro xs ys
  induction xs, ys using mseq.induct with
  | case1 ys =>
      intro _
      cases ys <;> simp [mseq]
  | case2 x xs =>
      intro _
      simp [mseq]
  | case3 x xs y ys h ih =>
      intro hd
      have h1 : mseq (x :: xs) (y :: ys) = y :: mseq (x :: xs) ys := by
        rw [mseq, if_pos h]
      have h2 : mseq (y :: ys) (x :: xs) = y :: mseq ys (x :: xs) := by
        rw [mseq, if_neg (not_lt_of_gt h)]
      rw [h1, h2, ih (distinct_drop_mid (x :: xs) y ys hd)]
  | case4 x xs y ys h ih =>
      intro hd
      have hne : x.timestamp ≠ y.timestamp := distinct_head_ne x y xs ys hd
      have hxy : x.timestamp < y.timestamp := by
        rcases lt_or_gt_of_ne hne with h1 | h1
        · exact h1
        · exact absurd h1 h
      have h1 : mseq (x :: xs) (y :: ys) = x :: mseq xs (y :: ys) := by
        rw [mseq, if_neg h]
      have h2 : mseq (y :: ys) (x :: xs) = x :: mseq (y :: ys) xs := by
        rw [mseq, if_pos hxy]
      rw [h1, h2, ih (distinct_cons_append_tail x xs (y :: ys) hd)]

/-! ### C8: merge order-independence -/

/-- C8 (amended): for two snapshots whose items carry pairwise distinct
timestamps (across all items, including items that share a UID),
merging [A, B] and [B, A] yields the same consolidated item map. -/
theorem c8_merge_commutes (A B : DrawState)
    (hd : DistinctTs (strokeValues A ++ strokeValues B)) :
    DrawState.mergeStates [A, B] = DrawState.mergeStates [B, A] := by
  have hd2 : DistinctTs (strokeValues B ++ strokeValues A) := by
    unfold DistinctTs at hd ⊢
    rw [List.pairwise_append] at hd ⊢
    exact ⟨hd.2.1, hd.1, fun a ha b hb => (hd.2.2 b hb a ha).symm⟩
  rw [mergeStates_two A B hd, mergeStates_two B A hd2,
    mseq_comm (strokeValues B) (strokeValues A) hd2]

/-- A one-stroke snapshot holding `u : pathData p @ 5`. -/
def c8X : DrawState :=
  { record := .mk [("u", .stroke ⟨"u", "p", 5⟩)] [] [] [], width := 1, height := 1 }

/-- A one-stroke snapshot holding `u : pathData q @ 5` (same UID and
timestamp as `c8X`, different payload). -/
def c8Y : DrawState :=
  { record := .mk [("u", .stroke ⟨"u", "q", 5⟩)] [] [] [], width := 1, height := 1 }

/-- C8 counterexample: `c8X` and `c8Y` have pairwise distinct
timestamps across *different* UIDs (there is only the UID "u"), yet
merging them in the two orders gives different item maps, refuting the
claim as stated. -/
theorem c8_counterexample :
    DrawState.mergeStates [c8X, c8Y] ≠ DrawState.mergeStates [c8Y, c8X] := by
  have hlt : heapLt (.stroke ⟨"u", "q", 5⟩, 1) (.stroke ⟨"u", "p", 5⟩, 0) = false := by
    decide
  have hlt2 : heapLt (.stroke ⟨"u", "p", 5⟩, 1) (.stroke ⟨"u", "q", 5⟩, 0) = false := by
    decide
  have h1 : DrawState.mergeStates [c8X, c8Y] = [("u", ⟨"u", "q", 5⟩)] := by
    rw [mergeStates_pair_eq]
    simp only [c8X, c8Y, strokeValues, DSRecord.strokes, List.map, List.tail,
      List.head?, List.foldl]
    rw [heappush_nil, heappush_one]
    simp only [hlt, Bool.false_eq_true, if_false]
    rw [mergeLoop_eq_wait [[], []] _ [(.stroke ⟨"u", "q", 5⟩, 1)] []
      (.stroke ⟨"u", "p", 5⟩) 0 (heappop_two _ _) (by rfl)]
    rw [mergeLoop_eq_wait [[], []] _ [] _ (.stroke ⟨"u", "q", 5⟩) 1
      (heappop_one _) (by rfl)]
    rw [mergeLoop_eq_none _ _ _ (by simp [heappop])]
    decide
  have h2 : DrawState.mergeStates [c8Y, c8X] = [("u", ⟨"u", "p", 5⟩)] := by
    rw [mergeStates_pair_eq]
    simp only [c8X, c8Y, strokeValues, DSRecord.strokes, List.map, List.tail,
      List.head?, List.foldl]
    rw [heappush_nil, heappush_one]
    simp only [hlt2, Bool.false_eq_true, if_false]
    rw [mergeLoop_eq_wait [[], []] _ [(.stroke ⟨"u", "p", 5⟩, 1)] []
      (.stroke ⟨"u", "q", 5⟩) 0 (heappop_two _ _) (by rfl)]
    rw [mergeLoop_eq_wait [[], []] _ [] _ (.stroke ⟨"u", "p", 5⟩) 1
      (heappop_one _) (by rfl)]
    rw [mergeLoop_eq_none _ _ _ (by simp [heappop])]
    decide
  rw [h1, h2]
  decide

/-- Witness for C8 at two concrete snapshots with distinct timestamps. -/
theorem c8_witness :
    DrawState.mergeStates
        [{ record := .mk [("a", .stroke ⟨"a", "p", 1⟩)] [] [] [], width := 1, height := 1 },
         { record := .mk [("b", .stroke ⟨"b", "q", 2⟩)] [] [] [], width := 1, height := 1 }]
      = DrawState.mergeStates
        [{ record := .mk [("b", .stroke ⟨"b", "q", 2⟩)] [] [] [], width := 1, height := 1 },
         { record := .mk [("a", .stroke ⟨"a", "p", 1⟩)] [] [] [], width := 1, height := 1 }] := by
  exact c8_merge_commutes _ _ (by decide)

/-! ### C2: the heap's tie handling -/

/-- C2 (amended): the merge queue's comparator consults only the item
timestamp, never the source index; consequently, for two snapshots
with pairwise distinct timestamps the pop order is exactly the
head-wise two-pointer timestamp merge, while exact-tie pop order is
decided by the binary heap's sift rules, not by lowest source index. -/
theorem c2_heap_order :
    (∀ (s t : StrokeData) (i j i' j' : Nat), heapLt (s, i) (t, j) = heapLt (s, i') (t, j'))
  ∧ (∀ (A B : DrawState), DistinctTs (strokeValues A ++ strokeValues B) →
      DrawState.mergeStates [A, B]
        = (mseq (strokeValues A) (strokeValues B)).foldl mergeStep []) :=
  ⟨fun _ _ _ _ _ _ => rfl, fun A B hd => mergeStates_two A B hd⟩

/-- Witness for C2 at two concrete distinct-timestamp snapshots. -/
theorem c2_witness :
    DrawState.mergeStates
        [{ record := .mk [("a", .stroke ⟨"a", "p", 2⟩)] [] [] [], width := 1, height := 1 },
         { record := .mk [("b", .stroke ⟨"b", "q", 1⟩)] [] [] [], width := 1, height := 1 }]
      = (mseq
          (strokeValues
            { record := .mk [("a", .stroke ⟨"a", "p", 2⟩)] [] [] [], width := 1, height := 1 })
          (strokeValues
            { record := .mk [("b", .stroke ⟨"b", "q", 1⟩)] [] [] [], width := 1, height := 1 })
        ).foldl mergeStep [] := by
  exact c2_heap_order.2 _ _ (by decide)

def c2A : DrawState :=
  { record := .mk [("a", .stroke ⟨"a", "p", 0⟩)] [] [] [], width := 1, height := 1 }

def c2B : DrawState :=
  { record := .mk [("b", .stroke ⟨"b", "p", 0⟩)] [] [] [], width := 1, height := 1 }

def c2C : DrawState :=
  { record := .mk [("c", .stroke ⟨"c", "p", 0⟩)] [] [] [], width := 1, height := 1 }

def c2D : DrawState :=
  { record := .mk [("d", .stroke ⟨"d", "p", 0⟩)] [] [] [], width := 1, height := 1 }

def va : StrokeData := .stroke ⟨"a", "p", 0⟩
def vb : StrokeData := .stroke ⟨"b", "p", 0⟩
def vc : StrokeData := .stroke ⟨"c", "p", 0⟩
def vd : StrokeData := .stroke ⟨"d", "p", 0⟩

set_option maxRecDepth 8000 in
/-- C2 counterexample: four snapshots whose single items all share one
timestamp merge in source order 0, 2, 1, 3 — not the (timestamp,
sourceIndex) order 0, 1, 2, 3 the claim requires. -/
theorem c2_counterexample :
    (DrawState.mergeStates [c2A, c2B, c2C, c2D]).map Prod.fst = ["a", "c", "b", "d"]
    ∧ (DrawState.mergeStates [c2A, c2B, c2C, c2D]).map Prod.fst ≠ ["a", "b", "c", "d"] := by
  have hp2 : heappush [(va, 0)] (vb, 1) = [(va, 0), (vb, 1)] := by
    rw [heappush_one]
    simp [heapLt, va, vb, StrokeData.timestamp]
  have hp3 : heappush [(va, 0), (vb, 1)] (vc, 2) = [(va, 0), (vb, 1), (vc, 2)] := by
    unfold heappush
    rw [siftdownGo]
    simp [heapLt, va, vb, vc, dfltElem, StrokeData.timestamp]
  have hp4 : heappush [(va, 0), (vb, 1), (vc, 2)] (vd, 3)
      = [(va, 0), (vb, 1), (vc, 2), (vd, 3)] := by
    unfold heappush
    rw [siftdownGo]
    simp [heapLt, va, vb, vc, vd, dfltElem, StrokeData.timestamp]
  have hq1 : heappop [(va, 0), (vb, 1), (vc, 2), (vd, 3)]
      = some ((va, 0), [(vc, 2), (vb, 1), (vd, 3)]) := by
    simp [heappop, siftup, siftupLoop, siftdownGo, heapLt, va, vb, vc, vd, dfltElem,
      StrokeData.timestamp]
  have hq2 : heappop [(vc, 2), (vb, 1), (vd, 3)] = some ((vc, 2), [(vb, 1), (vd, 3)]) := by
    simp [heappop, siftup, siftupLoop, siftdownGo, heapLt, va, vb, vc, vd, dfltElem,
      StrokeData.timestamp]
  have hmain : DrawState.mergeStates [c2A, c2B, c2C, c2D]
      = mergeStep (mergeStep (mergeStep (mergeStep [] va) vc) vb) vd := by
    unfold DrawState.mergeStates
    simp only [c2A, c2B, c2C, c2D, strokeValues, DSRecord.strokes, List.map, List.tail,
      List.head?, List.enum, List.enumFrom, List.foldl]
    show mergeLoop [[], [], [], []]
      (heappush (heappush (heappush (heappush [] (va, 0)) (vb, 1)) (vc, 2)) (vd, 3)) []
      = mergeStep (mergeStep (mergeStep (mergeStep [] va) vc) vb) vd
    rw [heappush_nil, hp2, hp3, hp4]
    rw [mergeLoop_eq_wait [[], [], [], []] _ [(vc, 2), (vb, 1), (vd, 3)] [] va 0 hq1 (by rfl)]
    rw [mergeLoop_eq_wait [[], [], [], []] _ [(vb, 1), (vd, 3)] _ vc 2 hq2 (by rfl)]
    rw [mergeLoop_eq_wait [[], [], [], []] _ [(vd, 3)] _ vb 1 (heappop_two _ _) (by rfl)]
    rw [mergeLoop_eq_wait [[], [], [], []] _ [] _ vd 3 (heappop_one _) (by rfl)]
    rw [mergeLoop_eq_none _ _ _ (by simp [heappop])]
  rw [hmain]
  constructor
  · decide
  · decide

/-! ### C1: tombstone versus timestamp order -/

/-- C1 (amended): a tombstone targeting `u` removes `u` from the merged
output when its timestamp is later than the stroke's (in either input
order); when its timestamp is earlier it pops first, deletes nothing,
and the stroke survives. -/
theorem c1_tombstone_later (u w pd : String) (ts tt wd1 ht1 wd2 ht2 : Int)
    (h : ts < tt) :
    omLookup (DrawState.mergeStates
      [{ record := .mk [(u, .stroke ⟨u, pd, ts⟩)] [] [] [], width := wd1, height := ht1 },
       { record := .mk [(w, .hide w u tt)] [] [] [], width := wd2, height := ht2 }]) u = none
  ∧ omLookup (DrawState.mergeStates
      [{ record := .mk [(w, .hide w u tt)] [] [] [], width := wd2, height := ht2 },
       { record := .mk [(u, .stroke ⟨u, pd, ts⟩)] [] [] [], width := wd1, height := ht1 }]) u
      = none := by
  have hlt1 : heapLt (.hide w u tt, 1) (.stroke ⟨u, pd, ts⟩, 0) = false := by
    simp [heapLt, StrokeData.timestamp]
    omega
  have hlt2 : heapLt (.stroke ⟨u, pd, ts⟩, 1) (.hide w u tt, 0) = true := by
    simp [heapLt, StrokeData.timestamp]
    omega
  constructor
  · rw [mergeStates_pair_eq]
    simp only [strokeValues, DSRecord.strokes, List.map, List.tail, List.head?, List.foldl]
    rw [heappush_nil, heappush_one]
    simp only [hlt1, Bool.false_eq_true, if_false]
    rw [mergeLoop_eq_wait [[], []] _ [(.hide w u tt, 1)] [] (.stroke ⟨u, pd, ts⟩) 0
      (heappop_two _ _) (by rfl)]
    rw [mergeLoop_eq_wait [[], []] _ [] _ (.hide w u tt) 1 (heappop_one _) (by rfl)]
    rw [mergeLoop_eq_none _ _ _ (by simp [heappop])]
    simp [mergeStep, omSet, omDelete, omLookup]
  · rw [mergeStates_pair_eq]
    simp only [strokeValues, DSRecord.strokes, List.map, List.tail, List.head?, List.foldl]
    rw [heappush_nil, heappush_one]
    simp only [hlt2, if_true]
    rw [mergeLoop_eq_wait [[], []] _ [(.hide w u tt, 0)] [] (.stroke ⟨u, pd, ts⟩) 1
      (heappop_two _ _) (by rfl)]
    rw [mergeLoop_eq_wait [[], []] _ [] _ (.hide w u tt) 0 (heappop_one _) (by rfl)]
    rw [mergeLoop_eq_none _ _ _ (by simp [heappop])]
    simp [mergeStep, omSet, omDelete, omLookup]

/-- Witness for C1 with the spec's own numbers: stroke at t = 5,
tombstone at t = 10. -/
theorem c1_witness :
    omLookup (DrawState.mergeStates
      [{ record := .mk [("u", .stroke ⟨"u", "p", 5⟩)] [] [] [], width := 1, height := 1 },
       { record := .mk [("w", .hide "w" "u" 10)] [] [] [], width := 1, height := 1 }]) "u"
      = none
  ∧ omLookup (DrawState.mergeStates
      [{ record := .mk [("w", .hide "w" "u" 10)] [] [] [], width := 1, height := 1 },
       { record := .mk [("u", .stroke ⟨"u", "p", 5⟩)] [] [] [], width := 1, height := 1 }]) "u"
      = none := by
  exact c1_tombstone_later "u" "w" "p" 5 10 1 1 1 1 (by decide)

def c1X : DrawState :=
  { record := .mk [("u", .stroke ⟨"u", "p", 5⟩)] [] [] [], width := 1, height := 1 }

def c1Y : DrawState :=
  { record := .mk [("w", .hide "w" "u" 3)] [] [] [], width := 1, height := 1 }

/-- C1 counterexample: the tombstone at t = 3 pops before the stroke at
t = 5, deletes nothing, and the stroke stays in the merged output —
refuting the "regardless of timestamp order" half of the claim. -/
theorem c1_counterexample :
    omLookup (DrawState.mergeStates [c1X, c1Y]) "u" = some ⟨"u", "p", 5⟩ := by
  have hlt : heapLt (.hide "w" "u" 3, 1) (.stroke ⟨"u", "p", 5⟩, 0) = true := by
    decide
  rw [mergeStates_pair_eq]
  simp only [c1X, c1Y, strokeValues, DSRecord.strokes, List.map, List.tail, List.head?,
    List.foldl]
  rw [heappush_nil, heappush_one]
  simp only [hlt, if_true]
  rw [mergeLoop_eq_wait [[], []] _ [(.stroke ⟨"u", "p", 5⟩, 0)] [] (.hide "w" "u" 3) 1
    (heappop_two _ _) (by rfl)]
  rw [mergeLoop_eq_wait [[], []] _ [] _ (.stroke ⟨"u", "p", 5⟩) 0 (heappop_one _) (by rfl)]
  rw [mergeLoop_eq_none _ _ _ (by simp [heappop])]
  decide

/-! ### Keys, membership and no-duplicate lemmas for the maps -/

/-- The map has no duplicate keys (every map built by the code does). -/
def keysNodup {α : Type} (m : List (String × α)) : Prop :=
  (m.map Prod.fst).Nodup

theorem mem_omSet {α : Type} (m : List (String × α)) (k : String) (v : α)
    (p : String × α) (h : p ∈ omSet m k v) : p = (k, v) ∨ p ∈ m := by
  induction m with
  | nil =>
      simp [omSet] at h
      exact Or.inl h
  | cons q rest ih =>
      obtain ⟨a, b⟩ := q
      by_cases ha : a = k
      · simp only [omSet, if_pos ha] at h
        rcases List.mem_cons.mp h with h1 | h1
        · exact Or.inl h1
        · exact Or.inr (List.mem_cons_of_mem _ h1)
      · simp only [omSet, if_neg ha] at h
        rcases List.mem_cons.mp h with h1 | h1
        · exact Or.inr (h1 ▸ List.mem_cons_self _ _)
        · rcases ih h1 with h2 | h2
          · exact Or.inl h2
          · exact Or.inr (List.mem_cons_of_mem _ h2)

theorem mem_keys_omSet {α : Type} (m : List (String × α)) (k : String) (v : α)
    (q : String) (h : q ∈ (omSet m k v).map Prod.fst) :
    q = k ∨ q ∈ m.map Prod.fst := by
  rcases List.mem_map.mp h with ⟨p, hp, he⟩
  rcases mem_omSet m k v p hp with h1 | h1
  · subst h1
    exact Or.inl (by rw [← he])
  · exact Or.inr (he ▸ List.mem_map_of_mem Prod.fst h1)

theorem keysNodup_omSet {α : Type} (m : List (String × α)) (k : String) (v : α)
    (h : keysNodup m) : keysNodup (omSet m k v) := by
  induction m with
  | nil => simp [omSet, keysNodup]
  | cons q rest ih =>
      obtain ⟨a, b⟩ := q
      unfold keysNodup at h
      simp only [List.map_cons, List.nodup_cons] at h
      by_cases ha : a = k
      · unfold keysNodup
        simp only [omSet, if_pos ha, List.map_cons, List.nodup_cons]
        exact ⟨by rw [← ha]; exact h.1, h.2⟩
      · unfold keysNodup
        simp only [omSet, if_neg ha, List.map_cons, List.nodup_cons]
        refine ⟨?_, ih h.2⟩
        intro hcon
        rcases mem_keys_omSet rest k v a hcon with h1 | h1
        · exact ha h1
        · exact h.1 h1

theorem mem_omSet_nodup {α : Type} (m : List (String × α)) (k : String) (v : α)
    (p : String × α) (hn : keysNodup m) (h : p ∈ omSet m k v) :
    p = (k, v) ∨ (p ∈ m ∧ p.1 ≠ k) := by
  induction m with
  | nil =>
      simp [omSet] at h
      exact Or.inl h
  | cons q rest ih =>
      obtain ⟨a, b⟩ := q
      unfold keysNodup at hn
      simp only [List.map_cons, List.nodup_cons] at hn
      by_cases ha : a = k
      · subst ha
        simp only [omSet, if_pos rfl] at h
        rcases List.mem_cons.mp h with h1 | h1
        · exact Or.inl h1
        · refine Or.inr ⟨List.mem_cons_of_mem _ h1, ?_⟩
          intro he
          exact hn.1 (he ▸ List.mem_map_of_mem Prod.fst h1)
      · simp only [omSet, if_neg ha] at h
        rcases List.mem_cons.mp h with h1 | h1
        · subst h1
          exact Or.inr ⟨List.mem_cons_self _ _, ha⟩
        · rcases ih hn.2 h1 with h2 | h2
          · exact Or.inl h2
          · exact Or.inr ⟨List.mem_cons_of_mem _ h2.1, h2.2⟩

theorem mem_omDelete {α : Type} (m : List (String × α)) (k : String) (p : String × α) :
    p ∈ omDelete m k ↔ p ∈ m ∧ p.1 ≠ k := by
  unfold omDelete
  rw [List.mem_filter]
  simp [bne_iff_ne]

theorem keysNodup_omDelete {α : Type} (m : List (String × α)) (k : String)
    (h : keysNodup m) : keysNodup (omDelete m k) := by
  unfold keysNodup at h ⊢
  exact h.sublist ((List.filter_sublist m).map Prod.fst)

theorem mem_omDeleteAll {α : Type} (l : List String) (m : List (String × α))
    (p : String × α) (h : p ∈ omDeleteAll m l) : p ∈ m := by
  induction l generalizing m with
  | nil => exact h
  | cons a t ih =>
      have := ih (omDelete m a) h
      exact ((mem_omDelete m a p).mp this).1

theorem keysNodup_omDeleteAll {α : Type} (l : List String) (m : List (String × α))
    (h : keysNodup m) : keysNodup (omDeleteAll m l) := by
  induction l generalizing m with
  | nil => exact h
  | cons a t ih => exact ih (omDelete m a) (keysNodup_omDelete m a h)

theorem mem_foldl_omSet {α : Type} (l : List (String × α)) :
    ∀ (acc : List (String × α)) (p : String × α),
    p ∈ l.foldl (fun acc q => omSet acc q.1 q.2) acc → p ∈ acc ∨ p ∈ l := by
  induction l with
  | nil => intro acc p h; exact Or.inl h
  | cons q rest ih =>
      intro acc p h
      rcases ih (omSet acc q.1 q.2) p h with h1 | h1
      · rcases mem_omSet acc q.1 q.2 p h1 with h2 | h2
        · exact Or.inr (h2 ▸ List.mem_cons_self _ _)
        · exact Or.inl h2
      · exact Or.inr (List.mem_cons_of_mem _ h1)

theorem keysNodup_foldl_omSet {α : Type} (l : List (String × α)) :
    ∀ (acc : List (String × α)), keysNodup acc →
    keysNodup (l.foldl (fun acc q => omSet acc q.1 q.2) acc) := by
  induction l with
  | nil => intro acc h; exact h
  | cons q rest ih =>
      intro acc h
      exact ih (omSet acc q.1 q.2) (keysNodup_omSet acc q.1 q.2 h)

theorem mem_omMergeList {α : Type} (m : List (String × α)) (entries : List (String × α))
    (p : String × α) (h : p ∈ omMergeList m entries) : p ∈ m ∨ p ∈ entries :=
  mem_foldl_omSet entries m p h

theorem keysNodup_omMergeList {α : Type} (m : List (String × α))
    (entries : List (String × α)) (h : keysNodup m) : keysNodup (omMergeList m entries) :=
  keysNodup_foldl_omSet entries m h

theorem mem_fromEntries {α : Type} (entries : List (String × α)) (p : String × α)
    (h : p ∈ fromEntries entries) : p ∈ entries := by
  rcases mem_foldl_omSet entries [] p h with h1 | h1
  · simp at h1
  · exact h1

theorem keysNodup_fromEntries {α : Type} (entries : List (String × α)) :
    keysNodup (fromEntries entries) :=
  keysNodup_foldl_omSet entries [] (by simp [keysNodup])

theorem nodup_key_eq {α : Type} (m : List (String × α)) (p q : String × α)
    (hn : keysNodup m) (hp : p ∈ m) (hq : q ∈ m) (hk : p.1 = q.1) : p = q :=
  List.inj_on_of_nodup_map hn hp hq hk

/-! ### The supersede-index invariant (C6) -/

/-- The supersede invariant on one strokes map / index pair: keys are
unique, and every `MUTATE` entry is indexed by `mutationPairs` under
its origin, pointing back at exactly its own key. -/
def MutInvSM (sm : List (String × StrokeData)) (mp : List (String × String)) : Prop :=
  keysNodup sm ∧
  ∀ p ∈ sm, ∀ o, p.2.mutOrigin = some o → omLookup mp o = some p.1

/-- Hereditary invariant: the supersede invariant holds of a record and
of every record stored in its undo and history stacks. -/
inductive HInv : DSRecord → Prop where
  | mk (r : DSRecord) :
      MutInvSM r.strokes r.mutationPairs →
      (∀ r2 ∈ r.undoStack, HInv r2) →
      (∀ r2 ∈ r.historyStack, HInv r2) → HInv r

theorem HInv.self {r : DSRecord} (h : HInv r) : MutInvSM r.strokes r.mutationPairs := by
  cases h with
  | mk _ a _ _ => exact a

theorem HInv.undoMem {r : DSRecord} (h : HInv r) : ∀ r2 ∈ r.undoStack, HInv r2 := by
  cases h with
  | mk _ _ b _ => exact b

theorem HInv.histMem {r : DSRecord} (h : HInv r) : ∀ r2 ∈ r.historyStack, HInv r2 := by
  cases h with
  | mk _ _ _ c => exact c

theorem pushStroke_HInv (ds : DrawState) (s : Stroke) (h : HInv ds.record) :
    HInv (DrawState.pushStroke ds s).record := by
  refine HInv.mk _ ⟨?_, ?_⟩ ?_ ?_
  · exact keysNodup_omSet _ _ _ h.self.1
  · intro p hp o hpo
    rcases mem_omSet _ _ _ p hp with h1 | h1
    · rw [h1] at hpo
      simp [StrokeData.mutOrigin] at hpo
    · exact h.self.2 p h1 o hpo
  · intro r2 hr2
    simp [DrawState.pushStroke, DSRecord.undoStack] at hr2
  · intro r2 hr2
    simp only [DrawState.pushStroke, DSRecord.historyStack] at hr2
    rcases List.mem_cons.mp hr2 with h1 | h1
    · exact h1 ▸ h
    · exact h.histMem r2 h1

theorem pushStrokeList_HInv (ds : DrawState) (l : List Stroke) (h : HInv ds.record) :
    HInv (DrawState.pushStrokeList ds l).record := by
  refine HInv.mk _ ⟨?_, ?_⟩ ?_ ?_
  · exact keysNodup_omMergeList _ _ h.self.1
  · intro p hp o hpo
    rcases mem_omMergeList _ _ p hp with h1 | h1
    · exact h.self.2 p h1 o hpo
    · rcases List.mem_map.mp h1 with ⟨st, _, he⟩
      rw [← he] at hpo
      simp [StrokeData.mutOrigin] at hpo
  · exact h.undoMem
  · exact h.histMem

theorem mem_addTombstones (env : UidEnv) (hs : List String) :
    ∀ (sm : List (String × StrokeData)) (i : Nat) (p : String × StrokeData),
    p ∈ addTombstones env sm hs i → p ∈ sm ∨ p.2.mutOrigin = none := by
  induction hs with
  | nil => intro sm i p hp; exact Or.inl hp
  | cons a t ih =>
      intro sm i p hp
      rcases ih _ (i + 1) p hp with h1 | h1
      · rcases mem_omSet _ _ _ p h1 with h2 | h2
        · rw [h2]
          exact Or.inr rfl
        · exact Or.inl h2
      · exact Or.inr h1

theorem keysNodup_addTombstones (env : UidEnv) (hs : List String) :
    ∀ (sm : List (String × StrokeData)) (i : Nat), keysNodup sm →
    keysNodup (addTombstones env sm hs i) := by
  induction hs with
  | nil => intro sm i h; exact h
  | cons a t ih =>
      intro sm i h
      exact ih _ (i + 1) (keysNodup_omSet _ _ _ h)

theorem eraseStrokes_HInv (env : UidEnv) (ds : DrawState) (erased : List String)
    (h : HInv ds.record) : HInv (DrawState.eraseStrokes env ds erased).record := by
  unfold DrawState.eraseStrokes
  by_cases he : erased = []
  · rw [if_pos he]
    exact h
  · rw [if_neg he]
    refine HInv.mk _ ⟨?_, ?_⟩ ?_ ?_
    · exact keysNodup_addTombstones env _ _ 0
        (keysNodup_omDeleteAll erased _ h.self.1)
    · intro p hp o hpo
      rcases mem_addTombstones env _ _ 0 p hp with h1 | h1
      · exact h.self.2 p (mem_omDeleteAll erased _ p h1) o hpo
      · rw [h1] at hpo
        cases hpo
    · intro r2 hr2
      simp [DSRecord.undoStack] at hr2
    · intro r2 hr2
      simp only [DSRecord.historyStack] at hr2
      rcases List.mem_cons.mp hr2 with h1 | h1
      · exact h1 ▸ h
      · exact h.histMem r2 h1

theorem mutateGo_inv (env : UidEnv) (ts : Int) (ms : List (String × String)) :
    ∀ (i : Nat) (sm : List (String × StrokeData)) (mp : List (String × String)),
    MutInvSM sm mp →
    MutInvSM (mutateGo env ts ms i (sm, mp)).1 (mutateGo env ts ms i (sm, mp)).2 := by
  induction ms with
  | nil => intro i sm mp h; exact h
  | cons q rest ih =>
      obtain ⟨uid, pathData⟩ := q
      intro i sm mp h
      simp only [mutateGo]
      apply ih (i + 1)
      constructor
      · exact keysNodup_omDelete _ _ (keysNodup_omSet _ _ _ h.1)
      · intro p hp o hpo
        have hp2 := (mem_omDelete _ _ p).mp hp
        rcases mem_omSet_nodup _ _ _ p h.1 hp2.1 with h1 | h1
        · rw [h1]
          rw [h1] at hpo
          simp only [StrokeData.mutOrigin, Option.some.injEq] at hpo
          rw [← hpo]
          exact omLookup_omSet_self mp uid (env.freshU i)
        · have hold := h.2 p h1.1 o hpo
          by_cases ho : o = uid
          · subst ho
            have : (omLookup mp o).getD "" = p.1 := by rw [hold]; rfl
            exact absurd this.symm hp2.2
          · rw [omLookup_omSet_ne mp uid (env.freshU i) o ho]
            exact hold

theorem mutateStrokes_HInv (env : UidEnv) (ds : DrawState)
    (ms : List (String × String)) (ts : Int) (h : HInv ds.record) :
    HInv (DrawState.mutateStrokes env ds ms ts).record := by
  unfold DrawState.mutateStrokes
  by_cases he : ms = []
  · rw [if_pos he]
    exact h
  · rw [if_neg he]
    have hinv := mutateGo_inv env ts ms 0 ds.record.strokes ds.record.mutationPairs h.self
    refine HInv.mk _ ⟨hinv.1, hinv.2⟩ ?_ ?_
    · intro r2 hr2
      simp [DSRecord.undoStack] at hr2
    · intro r2 hr2
      simp only [DSRecord.historyStack] at hr2
      rcases List.mem_cons.mp hr2 with h1 | h1
      · exact h1 ▸ h
      · exact h.histMem r2 h1

theorem splitChildren_mutOrigin (env : UidEnv) (ts : Int) :
    ∀ (ps : List String) (pu : String) (i : Nat) (p : String × StrokeData),
    p ∈ splitChildren env ts ps pu i → p.2.mutOrigin = none := by
  intro ps
  induction ps with
  | nil => intro pu i p hp; simp [splitChildren] at hp
  | cons a t ih =>
      intro pu i p hp
      simp only [splitChildren] at hp
      rcases List.mem_cons.mp hp with h1 | h1
      · rw [h1]
        rfl
      · exact ih _ _ p h1

theorem splitFold_mem (env : UidEnv) (splitMap : List (String × List String)) :
    ∀ (entries : List (String × StrokeData)) (acc : List (String × StrokeData))
      (p : String × StrokeData),
    p ∈ entries.foldl (fun acc q =>
        match omLookup splitMap q.1 with
        | some splitList => omMergeList acc (splitChildren env q.2.timestamp splitList q.1 0)
        | none => omSet acc q.1 q.2) acc →
    p ∈ acc ∨ p ∈ entries ∨ p.2.mutOrigin = none := by
  intro entries
  induction entries with
  | nil => intro acc p hp; exact Or.inl hp
  | cons q rest ih =>
      intro acc p hp
      simp only [List.foldl_cons] at hp
      rcases ih _ p hp with h1 | h1 | h1
      · rcases hsp : omLookup splitMap q.1 with _ | splitList
        · rw [hsp] at h1
          rcases mem_omSet _ _ _ p h1 with h2 | h2
          · exact Or.inr (Or.inl (h2 ▸ List.mem_cons_self _ _))
          · exact Or.inl h2
        · rw [hsp] at h1
          rcases mem_omMergeList _ _ p h1 with h2 | h2
          · exact Or.inl h2
          · exact Or.inr (Or.inr (splitChildren_mutOrigin env _ _ _ _ p h2))
      · exact Or.inr (Or.inl (List.mem_cons_of_mem _ h1))
      · exact Or.inr (Or.inr h1)

theorem splitFold_nodup (env : UidEnv) (splitMap : List (String × List String)) :
    ∀ (entries : List (String × StrokeData)) (acc : List (String × StrokeData)),
    keysNodup acc →
    keysNodup (entries.foldl (fun acc q =>
        match omLookup splitMap q.1 with
        | some splitList => omMergeList acc (splitChildren env q.2.timestamp splitList q.1 0)
        | none => omSet acc q.1 q.2) acc) := by
  intro entries
  induction entries with
  | nil => intro acc h; exact h
  | cons q rest ih =>
      intro acc h
      simp only [List.foldl_cons]
      apply ih
      rcases hsp : omLookup splitMap q.1 with _ | splitList
      · exact keysNodup_omSet _ _ _ h
      · exact keysNodup_omMergeList _ _ h

theorem splitStrokes_HInv (env : UidEnv) (ds : DrawState)
    (splitters : List (String × List String)) (h : HInv ds.record) :
    HInv (DrawState.splitStrokes env ds splitters).record := by
  unfold DrawState.splitStrokes
  by_cases he : splitters = []
  · rw [if_pos he]
    exact h
  · rw [if_neg he]
    refine HInv.mk _ ⟨?_, ?_⟩ ?_ ?_
    · exact splitFold_nodup env _ _ [] (by simp [keysNodup])
    · intro p hp o hpo
      rcases splitFold_mem env _ _ [] p hp with h1 | h1 | h1
      · simp at h1
      · exact h.self.2 p h1 o hpo
      · rw [h1] at hpo
        cases hpo
    · exact h.undoMem
    · intro r2 hr2
      simp only [DSRecord.historyStack] at hr2
      rcases List.mem_cons.mp hr2 with h1 | h1
      · exact h1 ▸ h
      · exact h.histMem r2 h1

theorem undo_HInv (ds : DrawState) (h : HInv ds.record) :
    HInv (DrawState.undo ds).record := by
  unfold DrawState.undo
  cases hh : ds.record.historyStack with
  | nil => exact h
  | cons r t =>
      have hr : HInv r := h.histMem r (by rw [hh]; exact List.mem_cons_self _ _)
      refine HInv.mk _ ⟨hr.self.1, hr.self.2⟩ ?_ ?_
      · intro r2 hr2
        simp only [DSRecord.undoStack] at hr2
        rcases List.mem_cons.mp hr2 with h1 | h1
        · exact h1 ▸ h
        · exact h.undoMem r2 h1
      · intro r2 hr2
        simp only [DSRecord.historyStack] at hr2
        exact hr.histMem r2 hr2

theorem redo_HInv (ds : DrawState) (h : HInv ds.record) :
    HInv (DrawState.redo ds).record := by
  unfold DrawState.redo
  cases hh : ds.record.undoStack with
  | nil => exact h
  | cons r t =>
      exact h.undoMem r (by rw [hh]; exact List.mem_cons_self _ _)

theorem pushOperation_HInv (env : UidEnv) (ds : DrawState) (op : Operation)
    (h : HInv ds.record) : HInv (DrawState.pushOperation env ds op).record := by
  cases op with
  | add s => exact pushStroke_HInv ds s h
  | add_list l => exact pushStrokeList_HInv ds l h
  | erase erased => exact eraseStrokes_HInv env ds erased h
  | mutate ms ts => exact mutateStrokes_HInv env ds ms ts h
  | split sp => exact splitStrokes_HInv env ds sp h
  | undo => exact undo_HInv ds h
  | redo => exact redo_HInv ds h

theorem loadScan_inv :
    ∀ (entries : List (String × StrokeData))
      (sm : List (String × StrokeData)) (mp : List (String × String)),
    keysNodup sm →
    (∀ q ∈ entries, q.1 ≠ "") →
    (∀ o k, omLookup mp o = some k → k ≠ "") →
    (∀ p ∈ sm, ∀ o, p.2.mutOrigin = some o → omLookup mp o = some p.1 ∨ p ∈ entries) →
    MutInvSM (loadScan entries (sm, mp)).1 (loadScan entries (sm, mp)).2 := by
  intro entries
  induction entries with
  | nil =>
      intro sm mp hn _ _ hq
      refine ⟨hn, ?_⟩
      intro p hp o hpo
      rcases hq p hp o hpo with h1 | h1
      · exact h1
      · simp at h1
  | cons e rest ih =>
      obtain ⟨uid, sd⟩ := e
      intro sm mp hn hkeys hmpv hq
      have huid : uid ≠ "" := hkeys (uid, sd) (List.mem_cons_self _ _)
      have hkeys2 : ∀ q ∈ rest, q.1 ≠ "" :=
        fun q hq2 => hkeys q (List.mem_cons_of_mem _ hq2)
      simp only [loadScan]
      rcases hsd : sd.mutOrigin with _ | origin
      · apply ih sm mp hn hkeys2 hmpv
        intro p hp o hpo
        rcases hq p hp o hpo with h1 | h1
        · exact Or.inl h1
        · rcases List.mem_cons.mp h1 with h2 | h2
          · rw [h2] at hpo
            simp only at hpo
            rw [hsd] at hpo
            cases hpo
          · exact Or.inr h2
      · have hmpv2 : ∀ o k, omLookup (omSet mp origin uid) o = some k → k ≠ "" := by
          intro o k hok
          by_cases ho : o = origin
          · subst ho
            rw [omLookup_omSet_self] at hok
            injection hok with hk
            exact hk ▸ huid
          · rw [omLookup_omSet_ne mp origin uid o ho] at hok
            exact hmpv o k hok
        rcases hprev : omLookup mp origin with _ | pk
        · simp only [hprev]
          apply ih sm (omSet mp origin uid) hn hkeys2 hmpv2
          intro p hp o hpo
          rcases hq p hp o hpo with h1 | h1
          · by_cases ho : o = origin
            · subst ho
              rw [hprev] at h1
              cases h1
            · rw [omLookup_omSet_ne mp origin uid o ho]
              exact Or.inl h1
          · rcases List.mem_cons.mp h1 with h2 | h2
            · rw [h2] at hpo ⊢
              simp only at hpo
              rw [hsd] at hpo
              injection hpo with hoo
              subst hoo
              exact Or.inl (omLookup_omSet_self mp _ _)
            · exact Or.inr h2
        · have hpk : pk ≠ "" := hmpv origin pk hprev
          simp only [hprev, if_neg hpk]
          apply ih (omDelete sm pk) (omSet mp origin uid)
            (keysNodup_omDelete sm pk hn) hkeys2 hmpv2
          intro p hp o hpo
          have hp2 := (mem_omDelete sm pk p).mp hp
          rcases hq p hp2.1 o hpo with h1 | h1
          · by_cases ho : o = origin
            · subst ho
              rw [hprev] at h1
              injection h1 with hk
              exact absurd hk.symm hp2.2
            · rw [omLookup_omSet_ne mp origin uid o ho]
              exact Or.inl h1
          · rcases List.mem_cons.mp h1 with h2 | h2
            · rw [h2] at hpo ⊢
              simp only at hpo
              rw [hsd] at hpo
              injection hpo with hoo
              subst hoo
              exact Or.inl (omLookup_omSet_self mp _ _)
            · exact Or.inr h2

theorem replay_HInv (envF : Nat → UidEnv) (ops : List Operation) :
    ∀ (st : DrawState × Nat), HInv st.1.record →
    HInv ((ops.foldl (fun (p : DrawState × Nat) op =>
      (DrawState.pushOperation (envF p.2) p.1 op, p.2 + 1)) st).1).record := by
  induction ops with
  | nil => intro st h; exact h
  | cons op rest ih =>
      intro st h
      exact ih _ (pushOperation_HInv (envF st.2) st.1 op h)

theorem loadFromFlat_HInv (envF : Nat → UidEnv) (flat : FlatState)
    (aspect width : Int) (hkeys : ∀ q ∈ flat.strokes, q.1 ≠ "") :
    HInv (DrawState.loadFromFlat envF flat aspect width).record := by
  have hscan := loadScan_inv flat.strokes (fromEntries flat.strokes) []
    (keysNodup_fromEntries _) hkeys
    (fun o k hok => by simp [omLookup] at hok)
    (fun p hp o _ => Or.inr (mem_fromEntries _ p hp))
  have h0 : HInv (DSRecord.mk (loadScan flat.strokes (fromEntries flat.strokes, [])).1
      (loadScan flat.strokes (fromEntries flat.strokes, [])).2 [] []) := by
    refine HInv.mk _ ⟨hscan.1, hscan.2⟩ ?_ ?_
    · intro r2 h2
      simp [DSRecord.undoStack] at h2
    · intro r2 h2
      simp [DSRecord.historyStack] at h2
  unfold DrawState.loadFromFlat
  cases ho : flat.operations with
  | none =>
      simp only [ho]
      exact h0
  | some ops =>
      simp only [ho]
      exact replay_HInv envF ops _ h0

/-- Snapshots reachable from `createEmpty` or `loadFromFlat` by any
sequence of `pushOperation` steps (with arbitrary external inputs).
Loaded flat maps are keyed by generated UIDs, which are never the
empty string — the condition the truthiness guard in `loadFromFlat`
relies on. -/
inductive Reach : DrawState → Prop where
  | empty (aspect width : Int) : Reach (DrawState.createEmpty aspect width)
  | load (envF : Nat → UidEnv) (flat : FlatState) (aspect width : Int) :
      (∀ q ∈ flat.strokes, q.1 ≠ "") →
      Reach (DrawState.loadFromFlat envF flat aspect width)
  | step (env : UidEnv) (ds : DrawState) (op : Operation) :
      Reach ds → Reach (DrawState.pushOperation env ds op)

theorem reach_HInv (ds : DrawState) (h : Reach ds) : HInv ds.record := by
  induction h with
  | empty aspect width =>
      refine HInv.mk _ ⟨?_, ?_⟩ ?_ ?_
      · simp [keysNodup, DrawState.createEmpty, DSRecord.strokes]
      · intro p hp
        simp [DrawState.createEmpty, DSRecord.strokes] at hp
      · intro r2 h2
        simp [DrawState.createEmpty, DSRecord.undoStack] at h2
      · intro r2 h2
        simp [DrawState.createEmpty, DSRecord.historyStack] at h2
  | load envF flat aspect width hkeys =>
      exact loadFromFlat_HInv envF flat aspect width hkeys
  | step env ds op _ ih => exact pushOperation_HInv env ds op ih

/-- C6: in every reachable snapshot, an `originUid` has at most one
`MUTATE` (supersede) record in the item map, and `mutationPairs` maps
each such origin to that record's UID (key). -/
theorem c6_supersede_invariant (ds : DrawState) (h : Reach ds) :
    (∀ p q, p ∈ ds.record.strokes → q ∈ ds.record.strokes →
        ∀ o, p.2.mutOrigin = some o → q.2.mutOrigin = some o → p = q)
  ∧ (∀ p ∈ ds.record.strokes, ∀ o, p.2.mutOrigin = some o →
        omLookup ds.record.mutationPairs o = some p.1) := by
  have hinv := (reach_HInv ds h).self
  refine ⟨?_, hinv.2⟩
  intro p q hp hq o hpo hqo
  have h1 := hinv.2 p hp o hpo
  have h2 := hinv.2 q hq o hqo
  have hk : p.1 = q.1 := by
    rw [h1] at h2
    injection h2
  exact nodup_key_eq ds.record.strokes p q hinv.1 hp hq hk

/-- Witness for C6: mutate origin "o" on the empty document, then read
the supersede index through the theorem. -/
theorem c6_witness :
    omLookup (DrawState.pushOperation witEnv (DrawState.createEmpty 1 2)
        (.mutate [("o", "p")] 5)).record.mutationPairs "o"
      = some (witEnv.freshU 0) := by
  have h := c6_supersede_invariant _
    (Reach.step witEnv (DrawState.createEmpty 1 2) (.mutate [("o", "p")] 5)
      (Reach.empty 1 2))
  exact h.2 (witEnv.freshU 0, .mutate (witEnv.freshU 0) "o" "p" 5) (by decide) "o" (by decide)

end DraftPad
